import Mathlib

/-!
Verification of the dbml-pg parser (grammar `dbml.ohm`, semantic actions
`semantics.ts`, parser/validator/error-reporter `parser.ts`).

Strings are modelled as `List Char`.  The Ohm matching engine is a PEG
matcher (ordered committed choice, possessive greedy repetition); it is
modelled here by an executable recursive-descent matcher over `List Char`
with explicit fuel for the (non-nested) repetitions, one Lean definition
per grammar rule.  Each rule's parser directly returns the value its
`toAST` semantic action produces, so the parse-tree stage and the AST
transform are fused rule by rule.  Numeric literals are kept as their
source text (the code stores `parseFloat(source)`; no claim depends on
the floating-point value).  Ohm's built-in `letter`/`space` are modelled
at ASCII level, which covers every construct of the grammar.
-/

abbrev Str := List Char

def lc (s : String) : Str := s.toList

/- Delimiter characters are written via their code points so that the
   Lean source contains no brace/quote/backtick character literals. -/
def lbraceC : Char := Char.ofNat 123
def rbraceC : Char := Char.ofNat 125
def lbrackC : Char := Char.ofNat 91
def rbrackC : Char := Char.ofNat 93
def btickC : Char := Char.ofNat 96
def squoteC : Char := Char.ofNat 39
def dquoteC : Char := Char.ofNat 34
def bslashC : Char := Char.ofNat 92
def nlC : Char := Char.ofNat 10
def crC : Char := Char.ofNat 13
def tabC : Char := Char.ofNat 9
def vtabC : Char := Char.ofNat 11
def ffC : Char := Char.ofNat 12
def caretC : Char := Char.ofNat 94

def isSpaceC (c : Char) : Bool :=
  c = ' ' || c = tabC || c = nlC || c = crC || c = vtabC || c = ffC

def isIdentC (c : Char) : Bool := c.isAlpha || c.isDigit || c = '_'

def isHexC (c : Char) : Bool :=
  c.isDigit || ('a' ≤ c && c ≤ 'f') || ('A' ≤ c && c ≤ 'F')

/-! ## PEG combinators -/

def P (α : Type) : Type := Str → Option (α × Str)

def pret (a : α) : P α := fun s => some (a, s)

def pfail : P α := fun _ => none

def pbind (p : P α) (f : α → P β) : P β := fun s =>
  match p s with
  | some (a, r) => f a r
  | none => none

instance : Monad P where
  pure := pret
  bind := pbind

/-- PEG ordered choice: committed to the first alternative that succeeds. -/
def palt (p q : P α) : P α := fun s =>
  match p s with
  | some r => some r
  | none => q s

def pmap (f : α → β) (p : P α) : P β := pbind p fun a => pret (f a)

/-- Optional (`e?`): never fails. -/
def popt (p : P α) : P (Option α) := fun s =>
  match p s with
  | some (a, r) => some (some a, r)
  | none => some (none, s)

/-- Greedy possessive repetition (`e*`), with fuel.  Every iterated rule of
    the grammar consumes input on success; a zero-width success ends the
    iteration (such a success never occurs for the rules below). -/
def pmanyF (p : P α) : Nat → Str → List α × Str
  | 0, s => ([], s)
  | fuel+1, s =>
    match p s with
    | none => ([], s)
    | some (a, r) =>
      if r.length < s.length then
        let step := pmanyF p fuel r
        (a :: step.1, step.2)
      else ([], s)

def pmany (p : P α) : P (List α) := fun s => some (pmanyF p (s.length + 1) s)

/-- Ohm `ListOf<X, sep>`: `X (sep X)*` or empty. -/
def pListOf (p : P α) (sep : P Unit) : P (List α) :=
  palt (do
    let a ← p
    let as ← pmany (do let _ ← sep; p)
    pret (a :: as))
    (pret [])

/-- Single literal character (terminal). -/
def pChar (c : Char) : P Unit := fun s =>
  match s with
  | d :: r => if d = c then some ((), r) else none
  | [] => none

/-- Case-sensitive literal terminal. -/
def pLit (l : Str) : P Unit := fun s =>
  if l.isPrefixOf s then some ((), s.drop l.length) else none

/-- Case-sensitive literal terminal that also returns the matched text. -/
def pLitRaw (l : Str) : P Str := fun s =>
  if l.isPrefixOf s then some (l, s.drop l.length) else none

/-! ## Whitespace and comments (`space += comment`) -/

def pSpaceChar : P Unit := fun s =>
  match s with
  | c :: r => if isSpaceC c then some ((), r) else none
  | [] => none

/-- `comment = "//" (~newline any)* newline?` (first alternative).
    `newline = "\n" | "\r" | "\r\n"` is an ordered choice, so on `\r\n`
    only the `\r` is consumed by the comment's optional newline. -/
def pLineComment : P Unit := fun s =>
  match s with
  | '/' :: '/' :: r =>
    let rest := r.dropWhile (fun c => !(c = nlC || c = crC))
    match rest with
    | c :: t => if c = nlC || c = crC then some ((), t) else some ((), rest)
    | [] => some ((), [])
  | _ => none

def blockScan : Nat → Str → Option Str
  | 0, _ => none
  | _+1, '*' :: '/' :: r => some r
  | f+1, _ :: r => blockScan f r
  | _+1, [] => none

/-- `comment = ... | "/*" (~"*/" any)* "*/"` — the closing `*/` is required. -/
def pBlockComment : P Unit := fun s =>
  match s with
  | '/' :: '*' :: r =>
    match blockScan (r.length + 1) r with
    | some t => some ((), t)
    | none => none
  | _ => none

def pComment : P Unit := palt pLineComment pBlockComment

/-- Skippable space in syntactic rules: `(space | comment)*`. -/
def pws : P Unit := do
  let _ ← pmany (palt pSpaceChar pComment)
  pret ()

/-- Apply a lexical rule after skipping space (implicit skipping inside
    syntactic rules). -/
def tok (p : P α) : P α := pbind pws fun _ => p

def sym (c : Char) : P Unit := tok (pChar c)

def lit (l : Str) : P Unit := tok (pLit l)

/-! ## Keywords (`caseInsensitive<"...">`, lexical) -/

/-- `caseInsensitive<kw>` for a lowercase keyword `kw`: matches exactly
    `kw.length` input characters whose lowercasing is `kw`. -/
def pKw (kw : Str) : P Unit := fun s =>
  if (s.take kw.length).map Char.toLower = kw then some ((), s.drop kw.length)
  else none

def kwProject : P Unit := pKw (lc "project")
def kwTable : P Unit := pKw (lc "table")
def kwTPart : P Unit := pKw (lc "tablepartial")
def kwRef : P Unit := pKw (lc "ref")
def kwEnum : P Unit := pKw (lc "enum")
def kwTablegroup : P Unit := pKw (lc "tablegroup")
def kwIndexes : P Unit := pKw (lc "indexes")
def kwNote : P Unit := pKw (lc "note")
def kwHeadercolor : P Unit := pKw (lc "headercolor")
def kwAs : P Unit := pKw (lc "as")
def kwType : P Unit := pKw (lc "type")
def kwName : P Unit := pKw (lc "name")
def kwWhere : P Unit := pKw (lc "where")
def kwDefault : P Unit := pKw (lc "default")
def kwNot : P Unit := pKw (lc "not")
def kwNull : P Unit := pKw (lc "null")
def kwPrimary : P Unit := pKw (lc "primary")
def kwKey : P Unit := pKw (lc "key")
def kwDelete : P Unit := pKw (lc "delete")
def kwUpdate : P Unit := pKw (lc "update")
def kwSet : P Unit := pKw (lc "set")
def kwNo : P Unit := pKw (lc "no")
def kwAction : P Unit := pKw (lc "action")
def kwTrue : P Unit := pKw (lc "true")
def kwFalse : P Unit := pKw (lc "false")
def kwPk : P Unit := pKw (lc "pk")
def kwUnique : P Unit := pKw (lc "unique")
def kwIncrement : P Unit := pKw (lc "increment")
def kwAsc : P Unit := pKw (lc "asc")
def kwDesc : P Unit := pKw (lc "desc")
def kwBtree : P Unit := pKw (lc "btree")
def kwHash : P Unit := pKw (lc "hash")
def kwGin : P Unit := pKw (lc "gin")
def kwGist : P Unit := pKw (lc "gist")
def kwSpgist : P Unit := pKw (lc "spgist")
def kwBrin : P Unit := pKw (lc "brin")
def kwCascade : P Unit := pKw (lc "cascade")
def kwRestrict : P Unit := pKw (lc "restrict")
def kwGenerated : P Unit := pKw (lc "generated")
def kwAlways : P Unit := pKw (lc "always")
def kwBy : P Unit := pKw (lc "by")
def kwIdentity : P Unit := pKw (lc "identity")
def kwStored : P Unit := pKw (lc "stored")
def kwCheck : P Unit := pKw (lc "check")
def kwConstraints : P Unit := pKw (lc "constraints")
def kwConstraint : P Unit := pKw (lc "constraint")
def kwExclude : P Unit := pKw (lc "exclude")
def kwUsing : P Unit := pKw (lc "using")
def kwWith : P Unit := pKw (lc "with")
def kwDeferrable : P Unit := pKw (lc "deferrable")
def kwInitially : P Unit := pKw (lc "initially")
def kwDeferred : P Unit := pKw (lc "deferred")
def kwImmediate : P Unit := pKw (lc "immediate")

/-- Every keyword of the grammar, all matched through `pKw`. -/
def kwList : List Str :=
  [lc "project", lc "table", lc "tablepartial", lc "ref", lc "enum",
   lc "tablegroup", lc "indexes", lc "note", lc "headercolor", lc "as",
   lc "type", lc "name", lc "where", lc "default", lc "not", lc "null",
   lc "primary", lc "key", lc "delete", lc "update", lc "set", lc "no",
   lc "action", lc "true", lc "false", lc "pk", lc "unique", lc "increment",
   lc "asc", lc "desc", lc "btree", lc "hash", lc "gin", lc "gist",
   lc "spgist", lc "brin", lc "cascade", lc "restrict", lc "generated",
   lc "always", lc "by", lc "identity", lc "stored", lc "check",
   lc "constraints", lc "constraint", lc "exclude", lc "using", lc "with",
   lc "deferrable", lc "initially", lc "deferred", lc "immediate"]

/-! ## Identifiers and reserved words -/

/-- The eight alternatives of the `reservedWord` rule, in grammar order. -/
def reservedKws : List Str :=
  [lc "project", lc "table", lc "tablepartial", lc "ref", lc "enum",
   lc "tablegroup", lc "indexes", lc "constraints"]

/-- Ordered choice over keyword matchers (PEG: commits to the first match). -/
def pKwChoice (ks : List Str) : P Unit :=
  ks.foldr (fun k acc => palt (pKw k) acc) pfail

/-- `reservedWord = (project | table | ... | constraints) ~(letter|digit|"_")`.
    The boundary lookahead applies after the committed choice. -/
def pReserved : P Unit := fun s =>
  match pKwChoice reservedKws s with
  | none => none
  | some (_, r) =>
    match r with
    | [] => some ((), r)
    | c :: _ => if isIdentC c then none else some ((), r)

/-- `identifierName = ~reservedWord (letter | "_") (letter | digit | "_")*`. -/
def pIdentName : P Str := fun s =>
  match pReserved s with
  | some _ => none
  | none =>
    match s with
    | [] => none
    | c :: cs =>
      if c.isAlpha || c = '_' then
        some (c :: cs.takeWhile isIdentC, cs.dropWhile isIdentC)
      else none

/-- `quotedIdentifier = "\"" (~"\"" any)* "\""`; returns (value, raw source). -/
def pQuotedIdent : P (Str × Str) := fun s =>
  match s with
  | c :: cs =>
    if c = dquoteC then
      let content := cs.takeWhile (fun d => d != dquoteC)
      match cs.dropWhile (fun d => d != dquoteC) with
      | d :: rest =>
        if d = dquoteC then some ((content, dquoteC :: (content ++ [dquoteC])), rest)
        else none
      | [] => none
    else none
  | [] => none

/-- `identifier = quotedIdentifier | identifierName`, with raw source text
    (needed by the `IndexTypeName_custom` action). -/
def pIdentVR : P (Str × Str) :=
  palt pQuotedIdent (pmap (fun n => (n, n)) pIdentName)

def pIdentifier : P Str := pmap (fun pr => pr.1) pIdentVR

/-! ## String-literal and value rules (`Values` section of the grammar) -/

def tq : Str := [squoteC, squoteC, squoteC]

/-- Scanner for `(~"'''" any)*`: consumes characters while the remaining
    input does not start with three quotes; fails at end of input
    (the grammar then cannot match the required closing delimiter). -/
def tripleScan : Nat → Str → Option (Str × Str)
  | 0, _ => none
  | f+1, s =>
    if tq.isPrefixOf s then some ([], s)
    else
      match s with
      | [] => none
      | c :: cs =>
        match tripleScan f cs with
        | some (acc, r) => some (c :: acc, r)
        | none => none

/-- `tripleString = "'''" (~"'''" any)* "'''"`; action: content verbatim. -/
def pTripleStr : P Str := fun s =>
  if tq.isPrefixOf s then
    match tripleScan (s.length + 1) (s.drop 3) with
    | some (content, r) => some (content, r.drop 3)
    | none => none
  else none

/-- `doubleStringChar_escape` action: mapping for a `\\`-escaped character. -/
def descape (c : Char) : Char :=
  if c = dquoteC then dquoteC
  else if c = bslashC then bslashC
  else if c = 'n' then nlC
  else if c = 'r' then crC
  else if c = 't' then tabC
  else c

/-- `singleStringChar_escape` action. -/
def sescape (c : Char) : Char :=
  if c = squoteC then squoteC
  else if c = bslashC then bslashC
  else if c = 'n' then nlC
  else if c = 'r' then crC
  else if c = 't' then tabC
  else c

/-- `doubleStringChar = "\\" any -- escape | ~("\"" | "\\") any -- normal`. -/
def pDChar : P Char := fun s =>
  match s with
  | c :: cs =>
    if c = bslashC then
      match cs with
      | d :: ds => some (descape d, ds)
      | [] => none
    else if c = dquoteC then none
    else some (c, cs)
  | [] => none

def pSChar : P Char := fun s =>
  match s with
  | c :: cs =>
    if c = bslashC then
      match cs with
      | d :: ds => some (sescape d, ds)
      | [] => none
    else if c = squoteC then none
    else some (c, cs)
  | [] => none

/-- `doubleString = "\"" doubleStringChar* "\""`; action: join mapped chars. -/
def pDoubleStr : P Str := fun s =>
  match s with
  | c :: cs =>
    if c = dquoteC then
      match pmany pDChar cs with
      | some (chars, r) =>
        match r with
        | d :: rest => if d = dquoteC then some (chars, rest) else none
        | [] => none
      | none => none
    else none
  | [] => none

def pSingleStr : P Str := fun s =>
  match s with
  | c :: cs =>
    if c = squoteC then
      match pmany pSChar cs with
      | some (chars, r) =>
        match r with
        | d :: rest => if d = squoteC then some (chars, rest) else none
        | [] => none
      | none => none
    else none
  | [] => none

/-- `backtickString = "\x60" (~"\x60" any)* "\x60"`; action: content verbatim. -/
def pBacktickStr : P Str := fun s =>
  match s with
  | c :: cs =>
    if c = btickC then
      let content := cs.takeWhile (fun d => d != btickC)
      match cs.dropWhile (fun d => d != btickC) with
      | d :: rest => if d = btickC then some (content, rest) else none
      | [] => none
    else none
  | [] => none

/-- `number = "-"? digit+ ("." digit+)?`; action is `parseFloat(source)`,
    modelled as the raw source text of the literal. -/
def pNumber : P Str := fun s =>
  let sign : Str × Str :=
    match s with
    | c :: r => if c = '-' then ([c], r) else ([], s)
    | [] => ([], s)
  let ds := sign.2.takeWhile Char.isDigit
  if ds = [] then none
  else
    let s2 := sign.2.dropWhile Char.isDigit
    match s2 with
    | '.' :: r2 =>
      let fs := r2.takeWhile Char.isDigit
      if fs = [] then some (sign.1 ++ ds, s2)
      else some (sign.1 ++ ds ++ '.' :: fs, r2.dropWhile Char.isDigit)
    | _ => some (sign.1 ++ ds, s2)

/-- `boolean = true -- true | false -- false`. -/
def pBoolean : P Bool :=
  palt (pmap (fun _ => true) kwTrue) (pmap (fun _ => false) kwFalse)

/-- Scalar values.  In the semantic actions each string form and each
    identifier produces a plain JS string; that common representation is
    `vstr`.  `vnum` keeps the numeric literal's source text. -/
inductive Value where
  | vstr (s : Str)
  | vnum (raw : Str)
  | vbool (b : Bool)
deriving Repr, DecidableEq

/-- `Value = tripleString | doubleString | singleString | number | boolean
    | identifier` (ordered). -/
def pValue : P Value :=
  palt (pmap .vstr pTripleStr)
    (palt (pmap .vstr pDoubleStr)
      (palt (pmap .vstr pSingleStr)
        (palt (pmap .vnum pNumber)
          (palt (pmap .vbool pBoolean)
            (pmap .vstr pIdentifier)))))

/-! ## AST value types (mirroring `types.ts`, with JS-absent fields as
`Option`; `none` models a field that is not present on the object) -/

inductive DefaultVal where
  | dexpr (text : Str)
  | dlit (v : Value)
deriving Repr, DecidableEq

structure RefEndpointT where
  schema : Option Str := none
  table : Str := []
  column : Option Str := none
  columns : Option (List Str) := none
deriving Repr, DecidableEq

structure InlineRefT where
  rtype : Str
  toE : RefEndpointT
deriving Repr, DecidableEq

/-- The optional fields a column-settings overlay can set (`Partial<Column>`
    in the code).  Field names ending in `V` avoid Lean keywords. -/
structure ColProps where
  pk : Option Bool := none
  unique : Option Bool := none
  notNull : Option Bool := none
  increment : Option Bool := none
  identityGeneration : Option Str := none
  generatedExpression : Option Str := none
  generatedStored : Option Bool := none
  defaultV : Option DefaultVal := none
  noteV : Option Value := none
  refV : Option InlineRefT := none
  checkV : Option Str := none
deriving Repr, DecidableEq

structure Column where
  name : Str
  type : Str
  props : ColProps
deriving Repr, DecidableEq

structure ColumnAst where
  name : Str
  dataType : Str
  props : ColProps
deriving Repr, DecidableEq

structure IndexColumnT where
  name : Str
  sort : Option Str := none
deriving Repr, DecidableEq

structure IdxProps where
  itype : Option Str := none
  unique : Option Bool := none
  pk : Option Bool := none
  iname : Option Value := none
  whereV : Option Value := none
deriving Repr, DecidableEq

structure IndexT where
  columns : List IndexColumnT
  props : IdxProps := {}
deriving Repr, DecidableEq

structure ConstraintT where
  name : Option Str := none
  ctype : Str := []
  expression : Option Str := none
  columnsC : Option (List Str) := none
  usingM : Option Str := none
  withOperator : Option Str := none
  deferrable : Option Bool := none
  initiallyDeferred : Option Bool := none
deriving Repr, DecidableEq

structure RefT where
  name : Option Str := none
  fromE : RefEndpointT
  toE : RefEndpointT
  refType : Str
  onDelete : Option Str := none
  onUpdate : Option Str := none
deriving Repr, DecidableEq

structure EnumValueT where
  name : Str
  noteV : Option Value := none
deriving Repr, DecidableEq

structure EnumT where
  name : Str
  values : List EnumValueT
deriving Repr, DecidableEq

structure TableGroupT where
  name : Str
  tables : List Str
deriving Repr, DecidableEq

structure ProjectT where
  name : Value
  props : List (Str × Value)
deriving Repr, DecidableEq

inductive TElem where
  | tcolumn (c : Column)
  | tpartialRef (n : Str)
deriving Repr, DecidableEq

structure Table where
  name : Str
  schema : Option Str := none
  aliasT : Option Str := none
  columns : List Column := []
  indexes : List IndexT := []
  constraints : Option (List ConstraintT) := none
  noteV : Option Value := none
  headerColor : Option Value := none
  elements : List TElem := []
deriving Repr, DecidableEq

structure PartialTable where
  name : Str
  columns : List Column := []
  indexes : List IndexT := []
  constraints : Option (List ConstraintT) := none
  noteV : Option Value := none
deriving Repr, DecidableEq

structure Schema where
  name : Value := .vstr (lc "database")
  tables : List Table := []
  refs : List RefT := []
  enums : List EnumT := []
  tableGroups : List TableGroupT := []
  project : Option ProjectT := none
  partials : List PartialTable := []
deriving Repr, DecidableEq

/-! ## Settings overlays (the `Object.assign` folds of the actions) -/

inductive ColSetting where
  | spk
  | sprimaryKey
  | sunique
  | snotNull
  | snull
  | sincrement
  | sidentityAlways
  | sidentityByDefault
  | sgeneratedStored (expr : Str)
  | scheck (expr : Str)
  | sdefault (v : DefaultVal)
  | snote (v : Value)
  | sref (r : InlineRefT)
deriving Repr, DecidableEq

/-- `Object.assign(result, setting.toAST())` for one column setting: the
    keys of that setting's record overwrite the accumulator. -/
def applySetting (acc : ColProps) : ColSetting → ColProps
  | .spk => { acc with pk := some true }
  | .sprimaryKey => { acc with pk := some true }
  | .sunique => { acc with unique := some true }
  | .snotNull => { acc with notNull := some true }
  | .snull => { acc with notNull := some false }
  | .sincrement => { acc with increment := some true }
  | .sidentityAlways => { acc with identityGeneration := some (lc "always") }
  | .sidentityByDefault => { acc with identityGeneration := some (lc "by default") }
  | .sgeneratedStored e =>
    { acc with generatedExpression := some e, generatedStored := some true }
  | .scheck e => { acc with checkV := some e }
  | .sdefault v => { acc with defaultV := some v }
  | .snote v => { acc with noteV := some v }
  | .sref r => { acc with refV := some r }

/-- The `ColumnSettings` action: fold the settings in written order. -/
def foldSettings (l : List ColSetting) : ColProps := l.foldl applySetting {}

inductive IdxSetting where
  | istype (t : Str)
  | isname (v : Value)
  | iswhere (v : Value)
  | ispk
  | isunique
deriving Repr, DecidableEq

def applyIdxSetting (acc : IdxProps) : IdxSetting → IdxProps
  | .istype t => { acc with itype := some t }
  | .isname v => { acc with iname := some v }
  | .iswhere v => { acc with whereV := some v }
  | .ispk => { acc with pk := some true }
  | .isunique => { acc with unique := some true }

inductive CsSetting where
  | csdeferrable
  | csnotDeferrable
  | csinitiallyDeferred
  | csinitiallyImmediate
deriving Repr, DecidableEq

structure CsProps where
  deferrable : Option Bool := none
  initiallyDeferred : Option Bool := none
deriving Repr, DecidableEq

def applyCsSetting (acc : CsProps) : CsSetting → CsProps
  | .csdeferrable => { acc with deferrable := some true }
  | .csnotDeferrable => { acc with deferrable := some false }
  | .csinitiallyDeferred => { acc with initiallyDeferred := some true }
  | .csinitiallyImmediate => { acc with initiallyDeferred := some false }

inductive RsSetting where
  | rsdelete (a : Str)
  | rsupdate (a : Str)
deriving Repr, DecidableEq

structure RsProps where
  onDelete : Option Str := none
  onUpdate : Option Str := none
deriving Repr, DecidableEq

def applyRsSetting (acc : RsProps) : RsSetting → RsProps
  | .rsdelete a => { acc with onDelete := some a }
  | .rsupdate a => { acc with onUpdate := some a }

/-! ## Table-body elements and per-construct build functions -/

inductive BodyElem where
  | bcolumn (c : ColumnAst)
  | bindexes (l : List IndexT)
  | bconstraints (l : List ConstraintT)
  | bnote (v : Value)
  | bheaderColor (v : Value)
  | bpartialRef (n : Str)
deriving Repr, DecidableEq

/-- The `Column` case builds `col = {name, type: dataType, ...props}`; the
    same object is pushed into `columns` and into `elements`. -/
def colOfAst (a : ColumnAst) : Column := ⟨a.name, a.dataType, a.props⟩

/-- One step of the `Table` action's loop over body elements. -/
def tableStep (t : Table) : BodyElem → Table
  | .bcolumn a =>
    let col := colOfAst a
    { t with columns := t.columns ++ [col], elements := t.elements ++ [.tcolumn col] }
  | .bindexes l => { t with indexes := l }
  | .bconstraints l => { t with constraints := some l }
  | .bnote v => { t with noteV := some v }
  | .bheaderColor v => { t with headerColor := some v }
  | .bpartialRef n => { t with elements := t.elements ++ [.tpartialRef n] }

/-- The `Table` action. -/
def tableOf (sch : Option Str) (nm : Str) (al : Option Str)
    (body : List BodyElem) : Table :=
  body.foldl tableStep
    { name := nm, schema := sch, aliasT := al, columns := [], indexes := [],
      constraints := none, noteV := none, headerColor := none, elements := [] }

/-- One step of the `TablePartial` action's loop (its switch has no case
    for headerColor or partialReference, and the grammar excludes them). -/
def partialStep (t : PartialTable) : BodyElem → PartialTable
  | .bcolumn a => { t with columns := t.columns ++ [colOfAst a] }
  | .bindexes l => { t with indexes := l }
  | .bconstraints l => { t with constraints := some l }
  | .bnote v => { t with noteV := some v }
  | .bheaderColor _ => t
  | .bpartialRef _ => t

/-- The `TablePartial` action. -/
def partialOf (nm : Str) (body : List BodyElem) : PartialTable :=
  body.foldl partialStep
    { name := nm, columns := [], indexes := [], constraints := none, noteV := none }

/-- JS `props[key] = value` on an object: existing key keeps its position
    and gets the new value, otherwise the pair is appended. -/
def setKeyV : List (Str × Value) → Str → Value → List (Str × Value)
  | [], k, v => [(k, v)]
  | (k', v') :: t, k, v =>
    if k' = k then (k', v) :: t else (k', v') :: setKeyV t k v

def lookupKeyV : List (Str × Value) → Str → Option Value
  | [], _ => none
  | (k', v') :: t, k => if k' = k then some v' else lookupKeyV t k

/-- The `Project` action: `{type, name: ident, ...props}` — a `name`
    property in the body overwrites the header name (spread order). -/
def projectOf (nm : Str) (props : List (Str × Value)) : ProjectT :=
  { name := (lookupKeyV props (lc "name")).getD (.vstr nm), props := props }

inductive ElementAst where
  | eproject (p : ProjectT)
  | etable (t : Table)
  | epart (p : PartialTable)
  | eref (r : RefT)
  | eenum (e : EnumT)
  | egroup (g : TableGroupT)
deriving Repr, DecidableEq

/-- One step of the `Schema` action's dispatch loop. -/
def schemaStep (s : Schema) : ElementAst → Schema
  | .eproject p => { s with project := some p, name := p.name }
  | .etable t => { s with tables := s.tables ++ [t] }
  | .epart p => { s with partials := s.partials ++ [p] }
  | .eref r => { s with refs := s.refs ++ [r] }
  | .eenum e => { s with enums := s.enums ++ [e] }
  | .egroup g => { s with tableGroups := s.tableGroups ++ [g] }

def schemaOf (els : List ElementAst) : Schema := els.foldl schemaStep {}

/-! ## Syntactic rules (implicit space skipping via `tok`/`sym`/`lit`) -/

/-- `TypeParams = (~")" any)+`: raw text up to the closing paren, captured
    verbatim (the action uses `params.sourceString`). -/
def pTypeParams : P Str := fun s =>
  let run := s.takeWhile (fun c => c != ')')
  if run = [] then none else some (run, s.dropWhile (fun c => c != ')'))

/-- `DataType = identifier "[]" -- array | identifier "(" TypeParams ")"
    -- parameterized | identifier -- simple`; actions compose the raw
    type string. -/
def pDataType : P Str :=
  palt (do
    let t ← tok pIdentifier
    lit (lc "[]")
    pret (t ++ lc "[]"))
    (palt (do
      let t ← tok pIdentifier
      sym '('
      let ps ← pTypeParams
      sym ')'
      pret (t ++ '(' :: (ps ++ [')'])))
      (tok pIdentifier))

/-- `RefType = "<>" | ">" | "<" | "-"` (ordered). -/
def pRefType : P Str :=
  tok (palt (pmap (fun _ => lc "<>") (pLit (lc "<>")))
    (palt (pmap (fun _ => lc ">") (pLit (lc ">")))
      (palt (pmap (fun _ => lc "<") (pLit (lc "<")))
        (pmap (fun _ => lc "-") (pLit (lc "-"))))))

/-- `RefEndpoint` (four ordered alternatives). -/
def pRefEndpoint : P RefEndpointT :=
  palt (do
    let sc ← tok pIdentifier
    sym '.'
    let tb ← tok pIdentifier
    sym '.'
    sym '('
    let cols ← pListOf (tok pIdentifier) (sym ',')
    sym ')'
    pret { schema := some sc, table := tb, columns := some cols })
    (palt (do
      let tb ← tok pIdentifier
      sym '.'
      sym '('
      let cols ← pListOf (tok pIdentifier) (sym ',')
      sym ')'
      pret { table := tb, columns := some cols })
      (palt (do
        let sc ← tok pIdentifier
        sym '.'
        let tb ← tok pIdentifier
        sym '.'
        let c ← tok pIdentifier
        pret { schema := some sc, table := tb, column := some c })
        (do
          let tb ← tok pIdentifier
          sym '.'
          let c ← tok pIdentifier
          pret { table := tb, column := some c })))

/-- `DefaultValue = backtickString -- expression | Value -- literal`. -/
def pDefaultValue : P DefaultVal :=
  palt (pmap .dexpr (tok pBacktickStr)) (pmap .dlit (tok pValue))

/-- `ColumnSetting` (thirteen ordered alternatives, grammar order). -/
def pColumnSetting : P ColSetting :=
  palt (do tok kwPk; pret .spk)
  (palt (do tok kwPrimary; tok kwKey; pret .sprimaryKey)
  (palt (do tok kwUnique; pret .sunique)
  (palt (do tok kwNot; tok kwNull; pret .snotNull)
  (palt (do tok kwNull; pret .snull)
  (palt (do tok kwIncrement; pret .sincrement)
  (palt (do tok kwGenerated; tok kwAlways; tok kwAs; tok kwIdentity; pret .sidentityAlways)
  (palt (do tok kwGenerated; tok kwBy; tok kwDefault; tok kwAs; tok kwIdentity; pret .sidentityByDefault)
  (palt (do
      tok kwGenerated; tok kwAlways; tok kwAs
      let e ← tok pBacktickStr
      tok kwStored
      pret (.sgeneratedStored e))
  (palt (do
      tok kwCheck
      let e ← tok pBacktickStr
      pret (.scheck e))
  (palt (do
      tok kwDefault; sym ':'
      let v ← pDefaultValue
      pret (.sdefault v))
  (palt (do
      tok kwNote; sym ':'
      let v ← tok pValue
      pret (.snote v))
    (do
      tok kwRef; sym ':'
      let rt ← pRefType
      let ep ← pRefEndpoint
      pret (.sref ⟨rt, ep⟩)))))))))))))

/-- `ColumnSettings = "[" ListOf<ColumnSetting, ","> "]"`; action folds the
    settings over an empty accumulator. -/
def pColumnSettings : P ColProps := do
  sym lbrackC
  let ss ← pListOf pColumnSetting (sym ',')
  sym rbrackC
  pret (ss.foldl applySetting {})

/-- `Column = identifier DataType ColumnSettings?`. -/
def pColumn : P BodyElem := do
  let n ← tok pIdentifier
  let dt ← pDataType
  let st ← popt pColumnSettings
  pret (.bcolumn ⟨n, dt, st.getD {}⟩)

/-- `SortOrder = asc | desc`. -/
def pSortOrder : P Str :=
  palt (pmap (fun _ => lc "asc") (tok kwAsc)) (pmap (fun _ => lc "desc") (tok kwDesc))

/-- `IndexColumn = identifier SortOrder?`. -/
def pIndexColumn : P IndexColumnT := do
  let n ← tok pIdentifier
  let so ← popt pSortOrder
  pret { name := n, sort := so }

/-- `IndexTypeName` (six keyword alternatives, then `identifier -- custom`
    whose action lowercases the raw source). -/
def pIndexTypeName : P Str :=
  palt (pmap (fun _ => lc "btree") kwBtree)
  (palt (pmap (fun _ => lc "hash") kwHash)
  (palt (pmap (fun _ => lc "gin") kwGin)
  (palt (pmap (fun _ => lc "gist") kwGist)
  (palt (pmap (fun _ => lc "spgist") kwSpgist)
  (palt (pmap (fun _ => lc "brin") kwBrin)
    (pmap (fun vr => vr.2.map Char.toLower) pIdentVR))))))

/-- `IndexSetting = IndexType | IndexName | IndexWhere | pk | unique`. -/
def pIndexSetting : P IdxSetting :=
  palt (do tok kwType; sym ':'; let t ← tok pIndexTypeName; pret (.istype t))
  (palt (do tok kwName; sym ':'; let v ← tok pValue; pret (.isname v))
  (palt (do tok kwWhere; sym ':'; let v ← tok pValue; pret (.iswhere v))
  (palt (pmap (fun _ => .ispk) (tok kwPk))
    (pmap (fun _ => .isunique) (tok kwUnique)))))

def pIndexSettings : P IdxProps := do
  sym lbrackC
  let ss ← pListOf pIndexSetting (sym ',')
  sym rbrackC
  pret (ss.foldl applyIdxSetting {})

/-- `Index = "(" ListOf<IndexColumn, ","> ")" IndexSettings? -- composite
    | identifier IndexSettings? -- single`. -/
def pIndex : P IndexT :=
  palt (do
    sym '('
    let cols ← pListOf pIndexColumn (sym ',')
    sym ')'
    let st ← popt pIndexSettings
    pret { columns := cols, props := st.getD {} })
    (do
      let c ← tok pIdentifier
      let st ← popt pIndexSettings
      pret { columns := [{ name := c }], props := st.getD {} })

/-- `Indexes = indexes "{" Index* "}"`. -/
def pIndexesE : P BodyElem := do
  tok kwIndexes
  sym lbraceC
  let is ← pmany pIndex
  sym rbraceC
  pret (.bindexes is)

/-- `ExcludeOperator`: literal operators in grammar order, then `any+`
    (which possessively consumes the whole rest of the input). -/
def pAnyPlus : P Str := fun s => if s = [] then none else some (s, [])

def pExcludeOp : P Str :=
  tok (palt (pLitRaw (lc "&&"))
    (palt (pLitRaw (lc "="))
      (palt (pLitRaw (lc "<>"))
        (palt (pLitRaw (lc "@>"))
          (palt (pLitRaw (lc "<@"))
            (palt (pLitRaw (lc "||"))
              (palt (pLitRaw (lc "-|-"))
                (palt (pLitRaw (lc "~")) pAnyPlus))))))))

/-- `ConstraintType` (four ordered alternatives). -/
def pConstraintType : P ConstraintT :=
  palt (do
    tok kwCheck
    let e ← tok pBacktickStr
    pret { ctype := lc "check", expression := some e })
  (palt (do
    tok kwUnique
    sym '('
    let cs ← pListOf (tok pIdentifier) (sym ',')
    sym ')'
    pret { ctype := lc "unique", columnsC := some cs })
  (palt (do
    tok kwPrimary; tok kwKey
    sym '('
    let cs ← pListOf (tok pIdentifier) (sym ',')
    sym ')'
    pret { ctype := lc "primary_key", columnsC := some cs })
    (do
      tok kwExclude; tok kwUsing
      let m ← tok pIdentifier
      sym '('
      let c ← tok pIdentifier
      tok kwWith
      let op ← pExcludeOp
      sym ')'
      pret { ctype := lc "exclude", usingM := some m, columnsC := some [c],
             withOperator := some op })))

def pConstraintSetting : P CsSetting :=
  palt (do tok kwDeferrable; pret .csdeferrable)
  (palt (do tok kwNot; tok kwDeferrable; pret .csnotDeferrable)
  (palt (do tok kwInitially; tok kwDeferred; pret .csinitiallyDeferred)
    (do tok kwInitially; tok kwImmediate; pret .csinitiallyImmediate)))

def pConstraintSettings : P CsProps := do
  sym lbrackC
  let ss ← pListOf pConstraintSetting (sym ',')
  sym rbrackC
  pret (ss.foldl applyCsSetting {})

/-- `Constraint = ConstraintName? ConstraintType ConstraintSettings?`;
    action: take the type's record, set the optional name, overlay the
    settings' fields. -/
def pConstraint : P ConstraintT := do
  let nm ← popt (do tok kwConstraint; tok pIdentifier)
  let ct ← pConstraintType
  let st ← popt pConstraintSettings
  let base := match nm with
    | some n => { ct with name := some n }
    | none => ct
  let props := st.getD {}
  pret { base with
    deferrable := match props.deferrable with
      | some b => some b
      | none => base.deferrable,
    initiallyDeferred := match props.initiallyDeferred with
      | some b => some b
      | none => base.initiallyDeferred }

/-- `Constraints = constraints "{" Constraint* "}"`. -/
def pConstraintsE : P BodyElem := do
  tok kwConstraints
  sym lbraceC
  let cs ← pmany pConstraint
  sym rbraceC
  pret (.bconstraints cs)

/-- `Note = note ":" Value`. -/
def pNoteE : P BodyElem := do
  tok kwNote
  sym ':'
  let v ← tok pValue
  pret (.bnote v)

/-- `HexColor = "#" hexDigit{6}`; action returns the raw token. -/
def pHexColor : P Str := fun s =>
  match s with
  | '#' :: r =>
    let hs := r.take 6
    if hs.length = 6 && hs.all isHexC then some ('#' :: hs, r.drop 6) else none
  | _ => none

/-- `HeaderColor = headercolor ":" (HexColor | Value)`; the action keeps the
    raw `#RRGGBB` token when the source starts with `#` (only `HexColor`
    can produce that), otherwise the `Value`. -/
def pHeaderColorE : P BodyElem := do
  tok kwHeadercolor
  sym ':'
  let v ← tok (palt (pmap .vstr pHexColor) pValue)
  pret (.bheaderColor v)

/-- `PartialReference = "~" identifier`. -/
def pPartialRefE : P BodyElem := do
  sym '~'
  let n ← tok pIdentifier
  pret (.bpartialRef n)

/-- `TableElement` (six ordered alternatives). -/
def pTableElement : P BodyElem :=
  palt pColumn
    (palt pIndexesE
      (palt pConstraintsE
        (palt pNoteE
          (palt pHeaderColorE pPartialRefE))))

/-- `TablePartialElement = Column | Indexes | Constraints | Note`. -/
def pTPElement : P BodyElem :=
  palt pColumn (palt pIndexesE (palt pConstraintsE pNoteE))

/-- `QualifiedIdentifier` (qualified before simple): (schema?, name). -/
def pQualifiedIdent : P (Option Str × Str) :=
  palt (do
    let sc ← tok pIdentifier
    sym '.'
    let n ← tok pIdentifier
    pret (some sc, n))
    (do
      let n ← tok pIdentifier
      pret (none, n))

/-- `TableAlias = as identifier`. -/
def pTableAlias : P Str := do
  tok kwAs
  tok pIdentifier

/-- `Table = table QualifiedIdentifier TableAlias? "{" TableBody "}"`. -/
def pTableE : P ElementAst := do
  tok kwTable
  let qi ← pQualifiedIdent
  let al ← popt pTableAlias
  sym lbraceC
  let body ← pmany pTableElement
  sym rbraceC
  pret (.etable (tableOf qi.1 qi.2 al body))

/-- `TablePartial = tablepartial identifier "{" TablePartialBody "}"`. -/
def pTablePartialE : P ElementAst := do
  tok kwTPart
  let n ← tok pIdentifier
  sym lbraceC
  let body ← pmany pTPElement
  sym rbraceC
  pret (.epart (partialOf n body))

/-- `RefSetting = RefOnDelete -- delete | RefOnUpdate -- update`;
    `RefAction` (five ordered alternatives). -/
def pRefAction : P Str :=
  palt (pmap (fun _ => lc "cascade") (tok kwCascade))
  (palt (pmap (fun _ => lc "restrict") (tok kwRestrict))
  (palt (do tok kwSet; tok kwNull; pret (lc "set null"))
  (palt (do tok kwSet; tok kwDefault; pret (lc "set default"))
    (do tok kwNo; tok kwAction; pret (lc "no action")))))

def pRefSetting : P RsSetting :=
  palt (do tok kwDelete; sym ':'; let a ← pRefAction; pret (.rsdelete a))
    (do tok kwUpdate; sym ':'; let a ← pRefAction; pret (.rsupdate a))

def pRefSettings : P RsProps := do
  sym lbrackC
  let ss ← pListOf pRefSetting (sym ',')
  sym rbrackC
  pret (ss.foldl applyRsSetting {})

/-- `Ref = ref RefName? ":" RefEndpoint RefType RefEndpoint RefSettings?`. -/
def pRefE : P ElementAst := do
  tok kwRef
  let nm ← popt (tok pIdentifier)
  sym ':'
  let f ← pRefEndpoint
  let rt ← pRefType
  let t ← pRefEndpoint
  let st ← popt pRefSettings
  let props := st.getD {}
  pret (.eref { name := nm, fromE := f, toE := t, refType := rt,
                onDelete := props.onDelete, onUpdate := props.onUpdate })

/-- `EnumValueNote = "[" note ":" Value "]"`. -/
def pEnumValueNote : P Value := do
  sym lbrackC
  tok kwNote
  sym ':'
  let v ← tok pValue
  sym rbrackC
  pret v

/-- `EnumValue = identifier EnumValueNote?`. -/
def pEnumValue : P EnumValueT := do
  let n ← tok pIdentifier
  let nt ← popt pEnumValueNote
  pret { name := n, noteV := nt }

/-- `Enum = enum identifier "{" EnumValue* "}"`. -/
def pEnumE : P ElementAst := do
  tok kwEnum
  let n ← tok pIdentifier
  sym lbraceC
  let vs ← pmany pEnumValue
  sym rbraceC
  pret (.eenum { name := n, values := vs })

/-- `TableGroup = tablegroup identifier "{" identifier* "}"`. -/
def pTableGroupE : P ElementAst := do
  tok kwTablegroup
  let n ← tok pIdentifier
  sym lbraceC
  let ts ← pmany (tok pIdentifier)
  sym rbraceC
  pret (.egroup { name := n, tables := ts })

/-- `ProjectProperty = identifier ":" Value`. -/
def pProjectProperty : P (Str × Value) := do
  let k ← tok pIdentifier
  sym ':'
  let v ← tok pValue
  pret (k, v)

/-- `Project = project identifier "{" ProjectBody "}"`; `ProjectBody`
    folds the properties into an object. -/
def pProjectE : P ElementAst := do
  tok kwProject
  let n ← tok pIdentifier
  sym lbraceC
  let props ← pmany pProjectProperty
  sym rbraceC
  pret (.eproject (projectOf n (props.foldl (fun acc kv => setKeyV acc kv.1 kv.2) [])))

/-- `Element = Project | Table | TablePartial | Ref | Enum | TableGroup`. -/
def pElement : P ElementAst :=
  palt pProjectE
    (palt pTableE
      (palt pTablePartialE
        (palt pRefE
          (palt pEnumE pTableGroupE))))

/-! ## The match step (external Ohm engine) and the Parser pipeline -/

/-- Modelled from the spec: the external Parsing Engine returns either a
    parse result or "a structured failure with a source offset" plus a
    raw message and, when available, expected alternatives (the code reads
    `match.getInterval().startIdx`, `match.message`, `match.expected`).
    The offset is modelled as the position at which the top-level match
    stopped consuming input. -/
structure MatchFailure where
  input : Str
  offset : Nat
  message : Str
  expected : Option (List Str)
deriving Repr, DecidableEq

def matchFailMessage : Str := lc "match failed"

/-- `grammar.match(dbml)` with the default start rule `Schema`:
    `Schema = Element*`, matched against the whole input (leading and
    trailing space skipped for a syntactic start rule). -/
def ohmMatch (cs : Str) : Except MatchFailure Schema :=
  match (do pws; let els ← pmany pElement; pws; pret els : P (List ElementAst)) cs with
  | some (els, []) => .ok (schemaOf els)
  | some (_, rest) =>
    .error { input := cs, offset := cs.length - rest.length,
             message := matchFailMessage, expected := none }
  | none =>
    .error { input := cs, offset := 0, message := matchFailMessage, expected := none }

/-! ## Type Mapper, Validator, Error Reporter (`parser.ts`) -/

/-- The built-in default type mappings of the `Parser` constructor. -/
def defaultMappings : List (Str × Str) :=
  [(lc "kinstant", lc "timestamp with time zone"), (lc "kjson", lc "jsonb")]

/-- `{...defaults, ...options.typeMappings}`: caller entries override the
    defaults; within a list a later binding for the same key wins. -/
def mergedMappings (caller : List (Str × Str)) : List (Str × Str) :=
  defaultMappings ++ caller

/-- JS record lookup: the last assignment for a key wins. -/
def lookupLastKV (m : List (Str × Str)) (k : Str) : Option Str :=
  m.foldl (fun acc kv => if kv.1 = k then some kv.2 else acc) none

/-- `mapType(type) = this.typeMappings[type] || type` — an absent key or an
    empty-string (falsy) value falls back to the original type. -/
def mapTypeF (m : List (Str × Str)) (t : Str) : Str :=
  match lookupLastKV m t with
  | some v => if v = [] then t else v
  | none => t

def mapCol (m : List (Str × Str)) (c : Column) : Column :=
  { c with type := mapTypeF m c.type }

/-- The column objects inside `elements` are the same JS objects as in
    `columns`, so the in-place `column.type` mutation is seen through both
    lists. -/
def mapElem (m : List (Str × Str)) : TElem → TElem
  | .tcolumn c => .tcolumn (mapCol m c)
  | .tpartialRef n => .tpartialRef n

/-- The type-mapping loop of `Parser.parse`: only `ast.tables` is visited. -/
def applyTypeMappings (m : List (Str × Str)) (s : Schema) : Schema :=
  { s with tables := s.tables.map fun t =>
      { t with columns := t.columns.map (mapCol m),
               elements := t.elements.map (mapElem m) } }

/-- JS `source.slice(0, k).split("\n")` piecewise (single-char separator,
    empty pieces preserved, `[""]` for the empty string). -/
def splitOnChar (c : Char) : Str → List Str
  | [] => [[]]
  | a :: as =>
    let r := splitOnChar c as
    if a = c then [] :: r
    else
      match r with
      | h :: t => (a :: h) :: t
      | [] => [[a]]

structure ParseErrorT where
  message : Str
  line : Nat
  column : Nat
  expected : List Str
  input : Str
deriving Repr, DecidableEq

/-- The `ParseError` constructor: `message || "Parse error"`, line/column
    from the failure offset, `expected` from the engine when available. -/
def mkParseError (f : MatchFailure) : ParseErrorT :=
  let pre := f.input.take f.offset
  let lines := splitOnChar nlC pre
  { message := if f.message = [] then lc "Parse error" else f.message,
    line := lines.length,
    column := (lines.getLastD []).length + 1,
    expected := f.expected.getD [],
    input := f.input }

def natStr (n : Nat) : Str := Nat.toDigits 10 n

/-- `ParseError.getFormattedMessage`: message, a `Line l, column c:` header,
    the offending source line and a caret aligned under the column. -/
def getFormattedMessage (e : ParseErrorT) : Str :=
  let lines := splitOnChar nlC e.input
  let errorLine := lines.getD (e.line - 1) (lc "undefined")
  let pointer := List.replicate (e.column - 1) ' ' ++ [caretC]
  e.message ++ [nlC, nlC] ++ lc "Line " ++ natStr e.line ++ lc ", column "
    ++ natStr e.column ++ [':', nlC] ++ errorLine ++ [nlC] ++ pointer

structure ValidateResult where
  valid : Bool
  error : Option Str
deriving Repr, DecidableEq

/-- `Parser.parse` (default start rule): match, on failure throw the
    `ParseError`, on success run the type-mapping loop over the AST.
    `caller` is `options.typeMappings`. -/
def parseD (caller : List (Str × Str)) (cs : Str) : Except ParseErrorT Schema :=
  match ohmMatch cs with
  | .error f => .error (mkParseError f)
  | .ok ast => .ok (applyTypeMappings (mergedMappings caller) ast)

/-- `Parser.validate`: match only; never builds a document, never maps
    types, never throws. -/
def validateD (cs : Str) : ValidateResult :=
  match ohmMatch cs with
  | .ok _ => { valid := true, error := none }
  | .error f => { valid := false, error := some f.message }

/-! # Helper lemmas -/

theorem bindP_def (p : P α) (f : α → P β) : p >>= f = pbind p f := rfl

theorem pureP_def (a : α) : (pure a : P α) = pret a := rfl

theorem palt_eq_some {p q : P α} {s : Str} {x : α × Str}
    (h : palt p q s = some x) : p s = some x ∨ q s = some x := by
  unfold palt at h
  cases hp : p s with
  | some r => rw [hp] at h; exact Or.inl h
  | none => rw [hp] at h; exact Or.inr h

theorem pbind_eq_some {p : P α} {f : α → P β} {s : Str} {x : β × Str}
    (h : pbind p f s = some x) :
    ∃ a r, p s = some (a, r) ∧ f a r = some x := by
  unfold pbind at h
  cases hp : p s with
  | some ar =>
    obtain ⟨a, r⟩ := ar
    rw [hp] at h
    exact ⟨a, r, rfl, h⟩
  | none => rw [hp] at h; exact absurd h (by simp)

theorem pmap_eq_some {f : α → β} {p : P α} {s : Str} {x : β × Str}
    (h : pmap f p s = some x) :
    ∃ a r, p s = some (a, r) ∧ x = (f a, r) := by
  unfold pmap at h
  rcases pbind_eq_some h with ⟨a, r, hp, hr⟩
  unfold pret at hr
  exact ⟨a, r, hp, by cases hr; rfl⟩

theorem popt_eq_some {p : P α} {s : Str} {x : Option α × Str}
    (h : popt p s = some x) :
    (∃ a r, p s = some (a, r) ∧ x = (some a, r)) ∨ (p s = none ∧ x = (none, s)) := by
  unfold popt at h
  cases hp : p s with
  | some ar =>
    obtain ⟨a, r⟩ := ar
    rw [hp] at h
    exact Or.inl ⟨a, r, rfl, by cases h; rfl⟩
  | none => rw [hp] at h; exact Or.inr ⟨rfl, by cases h; rfl⟩

/-- Every list item produced by `pmanyF` is an output of the item parser. -/
theorem pmanyF_mem {p : P α} :
    ∀ (fuel : Nat) (s : Str) (a : α), a ∈ (pmanyF p fuel s).1 →
      ∃ s' r', p s' = some (a, r') := by
  intro fuel
  induction fuel with
  | zero => intro s a h; simp [pmanyF] at h
  | succ f ih =>
    intro s a h
    cases hp : p s with
    | none => simp [pmanyF, hp] at h
    | some ar =>
      obtain ⟨b, r⟩ := ar
      simp only [pmanyF, hp] at h
      by_cases hlen : r.length < s.length
      · simp only [hlen, if_true] at h
        rcases List.mem_cons.mp h with heq | hmem
        · exact ⟨s, r, by rw [hp, heq]⟩
        · exact ih r a hmem
      · simp only [hlen, if_false] at h
        simp at h

theorem pmany_mem {p : P α} {s : Str} {as : List α} {r : Str}
    (h : pmany p s = some (as, r)) : ∀ a ∈ as, ∃ s' r', p s' = some (a, r') := by
  intro a ha
  unfold pmany at h
  have heq : pmanyF p (s.length + 1) s = (as, r) := by
    exact Option.some.inj h
  have hm : a ∈ (pmanyF p (s.length + 1) s).1 := by rw [heq]; exact ha
  exact pmanyF_mem _ _ _ hm

/-! # C3: column-settings overlay -/

theorem orElse_someL (x : α) (f : Unit → Option α) : (some x).orElse f = some x := rfl

theorem orElse_noneL (f : Unit → Option α) : Option.orElse none f = f () := rfl

/-- Field-wise overlay of two partial column records: a field present in
    the second record wins, otherwise the first record's value is kept. -/
def overlayProps (p q : ColProps) : ColProps :=
  { pk := q.pk.orElse fun _ => p.pk,
    unique := q.unique.orElse fun _ => p.unique,
    notNull := q.notNull.orElse fun _ => p.notNull,
    increment := q.increment.orElse fun _ => p.increment,
    identityGeneration := q.identityGeneration.orElse fun _ => p.identityGeneration,
    generatedExpression := q.generatedExpression.orElse fun _ => p.generatedExpression,
    generatedStored := q.generatedStored.orElse fun _ => p.generatedStored,
    defaultV := q.defaultV.orElse fun _ => p.defaultV,
    noteV := q.noteV.orElse fun _ => p.noteV,
    refV := q.refV.orElse fun _ => p.refV,
    checkV := q.checkV.orElse fun _ => p.checkV }

theorem overlayProps_empty_right (p : ColProps) : overlayProps p {} = p := by
  simp [overlayProps, orElse_noneL]

theorem applySetting_eq_overlay (acc : ColProps) (s : ColSetting) :
    applySetting acc s = overlayProps acc (applySetting {} s) := by
  cases s <;> simp [applySetting, overlayProps, orElse_someL, orElse_noneL]

theorem optOrElse_assoc (a b c : Option α) :
    c.orElse (fun _ => b.orElse fun _ => a) = (c.orElse fun _ => b).orElse fun _ => a := by
  cases c <;> rfl

theorem overlayProps_assoc (p q r : ColProps) :
    overlayProps (overlayProps p q) r = overlayProps p (overlayProps q r) := by
  simp only [overlayProps, ColProps.mk.injEq]
  refine ⟨?_, ?_, ?_, ?_, ?_, ?_, ?_, ?_, ?_, ?_, ?_⟩ <;>
    exact optOrElse_assoc _ _ _

theorem foldl_applySetting_eq_overlay (ys : List ColSetting) :
    ∀ acc : ColProps, ys.foldl applySetting acc = overlayProps acc (foldSettings ys) := by
  induction ys with
  | nil => intro acc; simp [foldSettings, overlayProps_empty_right]
  | cons s ys ih =>
    intro acc
    simp only [List.foldl_cons, foldSettings] at *
    rw [ih (applySetting acc s), ih (applySetting {} s),
        applySetting_eq_overlay acc s, overlayProps_assoc]

/-! # Projections used in concrete-example statements -/

def tablesOfR : Except ParseErrorT Schema → List Table
  | .ok s => s.tables
  | .error _ => []

def allCols (r : Except ParseErrorT Schema) : List Column :=
  ((tablesOfR r).map Table.columns).flatten

def isOkE : Except ParseErrorT Schema → Bool
  | .ok _ => true
  | .error _ => false

/-! # List helper lemmas for lexical scanners -/

theorem takeWhile_append_all {p : α → Bool} :
    ∀ {l1 : List α}, (∀ x ∈ l1, p x = true) →
      ∀ l2 : List α, (l1 ++ l2).takeWhile p = l1 ++ l2.takeWhile p := by
  intro l1
  induction l1 with
  | nil => intro _ l2; simp
  | cons a l ih =>
    intro h l2
    have ha : p a = true := h a (List.mem_cons_self a l)
    simp only [List.cons_append, List.takeWhile_cons, ha, if_true]
    rw [ih (fun x hx => h x (List.mem_cons_of_mem a hx)) l2]

theorem dropWhile_append_all {p : α → Bool} :
    ∀ {l1 : List α}, (∀ x ∈ l1, p x = true) →
      ∀ l2 : List α, (l1 ++ l2).dropWhile p = l2.dropWhile p := by
  intro l1
  induction l1 with
  | nil => intro _ l2; simp
  | cons a l ih =>
    intro h l2
    have ha : p a = true := h a (List.mem_cons_self a l)
    simp only [List.cons_append, List.dropWhile_cons, ha, if_true]
    exact ih (fun x hx => h x (List.mem_cons_of_mem a hx)) l2

theorem takeWhile_cons_false {p : α → Bool} {a : α} (h : p a = false) (l : List α) :
    (a :: l).takeWhile p = [] := by
  simp [List.takeWhile_cons, h]

theorem dropWhile_cons_false {p : α → Bool} {a : α} (h : p a = false) (l : List α) :
    (a :: l).dropWhile p = a :: l := by
  simp [List.dropWhile_cons, h]

/-- `pws` consumes nothing when the input starts with a character that is
    neither whitespace nor the start of a comment. -/
theorem pws_no_skip {c : Char} (hsp : isSpaceC c = false) (hsl : c ≠ '/')
    (r : Str) : pws (c :: r) = some ((), c :: r) := by
  have hitem : palt pSpaceChar pComment (c :: r) = none := by
    have h1 : pSpaceChar (c :: r) = none := by simp [pSpaceChar, hsp]
    have h2 : pLineComment (c :: r) = none := by
      unfold pLineComment
      split
      · next heq => rw [List.cons.injEq] at heq; exact absurd heq.1 hsl
      · rfl
    have h3 : pBlockComment (c :: r) = none := by
      unfold pBlockComment
      split
      · next heq => rw [List.cons.injEq] at heq; exact absurd heq.1 hsl
      · rfl
    simp [palt, pComment, h1, h2, h3]
  show pbind (pmany (palt pSpaceChar pComment)) (fun _ => pret ()) (c :: r) = _
  simp [pmany, pmanyF, pbind, hitem, pret]

/-- `backtickString` on `` `content` `` followed by anything: content
    returned verbatim. -/
theorem pBacktickStr_verbatim {content : Str} (h : btickC ∉ content) (rest : Str) :
    pBacktickStr (btickC :: (content ++ btickC :: rest)) = some (content, rest) := by
  have hall : ∀ x ∈ content, (x != btickC) = true := by
    intro x hx
    simp only [bne_iff_ne, ne_eq]
    exact fun hxe => h (hxe ▸ hx)
  have hbt : (btickC != btickC) = false := by simp
  have h1 : (content ++ btickC :: rest).takeWhile (fun x => x != btickC) = content := by
    rw [takeWhile_append_all hall,
        @takeWhile_cons_false Char (fun x => x != btickC) btickC hbt rest]
    simp
  have h2 : (content ++ btickC :: rest).dropWhile (fun x => x != btickC)
      = btickC :: rest := by
    rw [dropWhile_append_all hall]
    exact @dropWhile_cons_false Char (fun x => x != btickC) btickC hbt rest
  simp only [pBacktickStr]
  rw [h1, h2]
  simp

/-! # C3 and its concrete inputs -/

def exC3 : Str := lc "table t \x7b id int [null, not null]\n j int [not null, null]\n k int \x7d"

/-- C3: column settings are folded left-to-right; later settings of the
    same key overwrite earlier ones (overlay law over list append); the
    not-null flag is tri-state: `not null` gives `some true`, bare `null`
    gives `some false`, no setting leaves the field absent (`none`).
    `id int [null, not null]` yields not-null true and
    `id int [not null, null]` yields not-null false. -/
theorem c3_settings_overlay :
    (∀ xs ys : List ColSetting,
      foldSettings (xs ++ ys) = overlayProps (foldSettings xs) (foldSettings ys))
    ∧ (allCols (parseD [] exC3)).map (fun c => c.props.notNull)
        = [some true, some false, none]
    ∧ foldSettings [.snull, .snotNull] = { notNull := some true }
    ∧ foldSettings [.snotNull, .snull] = { notNull := some false } := by
  refine ⟨?_, ?_, ?_, ?_⟩
  · intro xs ys
    unfold foldSettings
    rw [List.foldl_append]
    exact foldl_applySetting_eq_overlay ys (List.foldl applySetting {} xs)
  · rfl
  · rfl
  · rfl

/-! # C4: default literal vs. expression -/

def exC4 : Str :=
  lc "table t \x7b a timestamp [default: `now()`]\n b varchar [default: 'active']\n c boolean [default: true] \x7d"

/-- C4: a backtick-delimited default becomes a tagged expression value
    whose text is the backtick content with the delimiters stripped and no
    further interpretation; any other literal form is stored as the typed
    literal directly, not wrapped: `` default: `now()` `` gives the
    expression "now()", `default: 'active'` the plain string "active",
    `default: true` the boolean true. -/
theorem c4_default_resolution :
    (∀ (content rest : Str), btickC ∉ content →
      pDefaultValue (btickC :: (content ++ btickC :: rest)) = some (.dexpr content, rest))
    ∧ (allCols (parseD [] exC4)).map (fun c => c.props.defaultV)
        = [some (.dexpr (lc "now()")), some (.dlit (.vstr (lc "active"))),
           some (.dlit (.vbool true))] := by
  constructor
  · intro content rest h
    have hws := @pws_no_skip btickC (by decide) (by decide) (content ++ btickC :: rest)
    have hb : tok pBacktickStr (btickC :: (content ++ btickC :: rest))
        = some (content, rest) := by
      show pbind pws (fun _ => pBacktickStr) _ = _
      simp only [pbind, hws]
      exact pBacktickStr_verbatim h rest
    have hm : pmap DefaultVal.dexpr (tok pBacktickStr) (btickC :: (content ++ btickC :: rest))
        = some (.dexpr content, rest) := by
      simp only [pmap, pbind, hb, pret]
    unfold pDefaultValue
    simp [palt, hm]
  · rfl

/-- Witness for the hypothesised part of C4. -/
theorem c4_default_resolution_witness :
    pDefaultValue (btickC :: (lc "now()" ++ btickC :: [])) = some (.dexpr (lc "now()"), []) :=
  c4_default_resolution.1 (lc "now()") [] (by decide)

/-! # C9: string unescaping and verbatim string forms -/

/-- Abstract source tokens of a quoted string: a normal character or a
    backslash escape. -/
inductive QTok where
  | qnorm (c : Char)
  | qesc (c : Char)
deriving Repr, DecidableEq

def renderQ1 : QTok → Str
  | .qnorm c => [c]
  | .qesc c => [bslashC, c]

def renderQ (l : List QTok) : Str := (l.map renderQ1).flatten

/-- Value of one token of a double-quoted string. -/
def interpD : QTok → Char
  | .qnorm c => c
  | .qesc c => descape c

/-- Value of one token of a single-quoted string. -/
def interpS : QTok → Char
  | .qnorm c => c
  | .qesc c => sescape c

/-- A normal character of a `q`-quoted string is neither the quote nor a
    backslash (the grammar's `~(quote | "\\") any`). -/
def validQ (q : Char) : QTok → Prop
  | .qnorm c => c ≠ q ∧ c ≠ bslashC
  | .qesc _ => True

theorem length_le_renderQ (l : List QTok) : l.length ≤ (renderQ l).length := by
  induction l with
  | nil => simp [renderQ]
  | cons t ts ih =>
    have : renderQ (t :: ts) = renderQ1 t ++ renderQ ts := by simp [renderQ]
    rw [this, List.length_append, List.length_cons]
    have h1 : 1 ≤ (renderQ1 t).length := by cases t <;> simp [renderQ1]
    omega

theorem pmanyF_pDChar_render :
    ∀ (toks : List QTok) (rest : Str) (fuel : Nat), toks.length < fuel →
      (∀ t ∈ toks, validQ dquoteC t) →
      pmanyF pDChar fuel (renderQ toks ++ dquoteC :: rest)
        = (toks.map interpD, dquoteC :: rest) := by
  intro toks
  induction toks with
  | nil =>
    intro rest fuel hf _
    obtain ⟨f, rfl⟩ : ∃ f, fuel = f + 1 := ⟨fuel - 1, by omega⟩
    have hd : pDChar (dquoteC :: rest) = none := by simp [pDChar, (by decide : ¬ dquoteC = bslashC)]
    simp [renderQ, pmanyF, hd]
  | cons t ts ih =>
    intro rest fuel hf hv
    obtain ⟨f, rfl⟩ : ∃ f, fuel = f + 1 := ⟨fuel - 1, by omega⟩
    have hts : ∀ t ∈ ts, validQ dquoteC t := fun x hx => hv x (List.mem_cons_of_mem t hx)
    have hren : renderQ (t :: ts) ++ dquoteC :: rest
        = renderQ1 t ++ (renderQ ts ++ dquoteC :: rest) := by
      simp [renderQ]
    cases t with
    | qnorm c =>
      obtain ⟨hq, hb⟩ := hv (.qnorm c) (List.mem_cons_self _ _)
      have hd : pDChar (c :: (renderQ ts ++ dquoteC :: rest))
          = some (c, renderQ ts ++ dquoteC :: rest) := by
        simp [pDChar, hb, hq]
      rw [hren]
      simp only [renderQ1, List.cons_append, List.nil_append, pmanyF, hd]
      rw [if_pos (by simp)]
      rw [ih rest f (by simpa using hf) hts]
      simp [interpD]
    | qesc c =>
      have hd : pDChar (bslashC :: c :: (renderQ ts ++ dquoteC :: rest))
          = some (descape c, renderQ ts ++ dquoteC :: rest) := by
        simp [pDChar]
      rw [hren]
      simp only [renderQ1, List.cons_append, List.nil_append, pmanyF, hd]
      rw [if_pos (by simp only [List.length_cons]; omega)]
      rw [ih rest f (by simpa using hf) hts]
      simp [interpD]

theorem pmanyF_pSChar_render :
    ∀ (toks : List QTok) (rest : Str) (fuel : Nat), toks.length < fuel →
      (∀ t ∈ toks, validQ squoteC t) →
      pmanyF pSChar fuel (renderQ toks ++ squoteC :: rest)
        = (toks.map interpS, squoteC :: rest) := by
  intro toks
  induction toks with
  | nil =>
    intro rest fuel hf _
    obtain ⟨f, rfl⟩ : ∃ f, fuel = f + 1 := ⟨fuel - 1, by omega⟩
    have hd : pSChar (squoteC :: rest) = none := by simp [pSChar, (by decide : ¬ squoteC = bslashC)]
    simp [renderQ, pmanyF, hd]
  | cons t ts ih =>
    intro rest fuel hf hv
    obtain ⟨f, rfl⟩ : ∃ f, fuel = f + 1 := ⟨fuel - 1, by omega⟩
    have hts : ∀ t ∈ ts, validQ squoteC t := fun x hx => hv x (List.mem_cons_of_mem t hx)
    have hren : renderQ (t :: ts) ++ squoteC :: rest
        = renderQ1 t ++ (renderQ ts ++ squoteC :: rest) := by
      simp [renderQ]
    cases t with
    | qnorm c =>
      obtain ⟨hq, hb⟩ := hv (.qnorm c) (List.mem_cons_self _ _)
      have hd : pSChar (c :: (renderQ ts ++ squoteC :: rest))
          = some (c, renderQ ts ++ squoteC :: rest) := by
        simp [pSChar, hb, hq]
      rw [hren]
      simp only [renderQ1, List.cons_append, List.nil_append, pmanyF, hd]
      rw [if_pos (by simp)]
      rw [ih rest f (by simpa using hf) hts]
      simp [interpS]
    | qesc c =>
      have hd : pSChar (bslashC :: c :: (renderQ ts ++ squoteC :: rest))
          = some (sescape c, renderQ ts ++ squoteC :: rest) := by
        simp [pSChar]
      rw [hren]
      simp only [renderQ1, List.cons_append, List.nil_append, pmanyF, hd]
      rw [if_pos (by simp only [List.length_cons]; omega)]
      rw [ih rest f (by simpa using hf) hts]
      simp [interpS]

theorem pDoubleStr_unescape {toks : List QTok} (hv : ∀ t ∈ toks, validQ dquoteC t)
    (rest : Str) :
    pDoubleStr (dquoteC :: (renderQ toks ++ dquoteC :: rest))
      = some (toks.map interpD, rest) := by
  have hfuel : toks.length < (renderQ toks ++ dquoteC :: rest).length + 1 := by
    have := length_le_renderQ toks
    rw [List.length_append]
    omega
  have hm := pmanyF_pDChar_render toks rest _ hfuel hv
  simp only [pDoubleStr, if_pos rfl, pmany, hm]
  simp

theorem pSingleStr_unescape {toks : List QTok} (hv : ∀ t ∈ toks, validQ squoteC t)
    (rest : Str) :
    pSingleStr (squoteC :: (renderQ toks ++ squoteC :: rest))
      = some (toks.map interpS, rest) := by
  have hfuel : toks.length < (renderQ toks ++ squoteC :: rest).length + 1 := by
    have := length_le_renderQ toks
    rw [List.length_append]
    omega
  have hm := pmanyF_pSChar_render toks rest _ hfuel hv
  simp only [pSingleStr, if_pos rfl, pmany, hm]
  simp

theorem tripleScan_through :
    ∀ (content : Str), squoteC ∉ content → ∀ (rest : Str) (fuel : Nat),
      content.length < fuel →
      tripleScan fuel (content ++ (tq ++ rest)) = some (content, tq ++ rest) := by
  intro content
  induction content with
  | nil =>
    intro _ rest fuel hf
    obtain ⟨f, rfl⟩ : ∃ f, fuel = f + 1 := ⟨fuel - 1, by omega⟩
    have : tq.isPrefixOf (tq ++ rest) = true := by
      simp [tq, List.isPrefixOf]
    simp [tripleScan, this]
  | cons c cs ih =>
    intro hmem rest fuel hf
    obtain ⟨f, rfl⟩ : ∃ f, fuel = f + 1 := ⟨fuel - 1, by omega⟩
    have hc : ¬ c = squoteC := fun h => hmem (by simp [h])
    have hpre : tq.isPrefixOf (c :: cs ++ (tq ++ rest)) = false := by
      simp [tq, List.isPrefixOf]
      intro h
      exact absurd h.symm hc
    have hcs : squoteC ∉ cs := fun h => hmem (List.mem_cons_of_mem c h)
    simp only [List.cons_append, tripleScan, hpre, Bool.false_eq_true, if_false]
    rw [List.cons_append] at hpre
    simp only [tripleScan, hpre, Bool.false_eq_true, if_false]
    rw [ih hcs rest f (by simpa using hf)]

theorem pTripleStr_verbatim {content : Str} (h : squoteC ∉ content) (rest : Str) :
    pTripleStr (tq ++ content ++ (tq ++ rest)) = some (content, rest) := by
  have h3 : tq.length = 3 := by decide
  have hpre : tq.isPrefixOf (tq ++ content ++ (tq ++ rest)) = true := by
    rw [List.append_assoc]
    simp [tq, List.isPrefixOf]
  have hdrop : (tq ++ content ++ (tq ++ rest)).drop 3 = content ++ (tq ++ rest) := by
    rw [List.append_assoc, ← h3, List.drop_left]
  have hlen : content.length < (tq ++ content ++ (tq ++ rest)).length + 1 := by
    simp [List.length_append]
    omega
  have hscan := tripleScan_through content h rest _ hlen
  simp only [pTripleStr, hpre, if_true, hdrop, hscan]
  rw [List.drop_left' h3]

/-- C9: for double- and single-quoted strings each backslash escape maps
    the quote to itself, backslash to backslash, `n`/`r`/`t` to newline,
    carriage return and tab, and any other escaped character to itself
    with no error; parsing a quoted string yields exactly the mapped
    characters of its tokens; triple-quoted and backtick-quoted content is
    copied verbatim with only the delimiters stripped. -/
theorem c9_string_unescaping :
    (descape dquoteC = dquoteC ∧ descape bslashC = bslashC ∧ descape 'n' = nlC
      ∧ descape 'r' = crC ∧ descape 't' = tabC
      ∧ ∀ c : Char, c ≠ dquoteC → c ≠ bslashC → c ≠ 'n' → c ≠ 'r' → c ≠ 't' →
          descape c = c)
    ∧ (sescape squoteC = squoteC ∧ sescape bslashC = bslashC ∧ sescape 'n' = nlC
      ∧ sescape 'r' = crC ∧ sescape 't' = tabC
      ∧ ∀ c : Char, c ≠ squoteC → c ≠ bslashC → c ≠ 'n' → c ≠ 'r' → c ≠ 't' →
          sescape c = c)
    ∧ (∀ (toks : List QTok) (rest : Str), (∀ t ∈ toks, validQ dquoteC t) →
        pDoubleStr (dquoteC :: (renderQ toks ++ dquoteC :: rest))
          = some (toks.map interpD, rest))
    ∧ (∀ (toks : List QTok) (rest : Str), (∀ t ∈ toks, validQ squoteC t) →
        pSingleStr (squoteC :: (renderQ toks ++ squoteC :: rest))
          = some (toks.map interpS, rest))
    ∧ (∀ (content rest : Str), squoteC ∉ content →
        pTripleStr (tq ++ content ++ (tq ++ rest)) = some (content, rest))
    ∧ (∀ (content rest : Str), btickC ∉ content →
        pBacktickStr (btickC :: (content ++ btickC :: rest)) = some (content, rest))
    ∧ pValue (lc "'''it's fine'''") = some (.vstr (lc "it's fine"), []) := by
  refine ⟨⟨by decide, by decide, by decide, by decide, by decide, ?_⟩,
          ⟨by decide, by decide, by decide, by decide, by decide, ?_⟩,
          ?_, ?_, ?_, ?_, ?_⟩
  · intro c h1 h2 h3 h4 h5; simp [descape, h1, h2, h3, h4, h5]
  · intro c h1 h2 h3 h4 h5; simp [sescape, h1, h2, h3, h4, h5]
  · intro toks rest hv; exact pDoubleStr_unescape hv rest
  · intro toks rest hv; exact pSingleStr_unescape hv rest
  · intro content rest h; exact pTripleStr_verbatim h rest
  · intro content rest h; exact pBacktickStr_verbatim h rest
  · rfl

/-- Witness for C9: a concrete double-quoted string with three escapes. -/
theorem c9_string_unescaping_witness :
    pDoubleStr (dquoteC :: (renderQ [.qnorm 'a', .qesc 'n', .qesc 'q'] ++ dquoteC :: []))
      = some (['a', nlC, 'q'], []) := by
  have h := c9_string_unescaping.2.2.1 [.qnorm 'a', .qesc 'n', .qesc 'q'] []
    (by
      intro t ht
      simp only [List.mem_cons, List.not_mem_nil, or_false] at ht
      rcases ht with rfl | rfl | rfl
      · exact ⟨by decide, by decide⟩
      · trivial
      · trivial)
  simpa [interpD, descape] using h

/-! # C8: case-insensitive keywords -/

def exC8a : Str := lc "table X \x7b id int [pk] \x7d"
def exC8b : Str := lc "TABLE X \x7b id int [PK] \x7d"
def exC8c : Str := lc "TaBLe X \x7b id int [Pk] \x7d"

/-- C8: every keyword of the language is matched case-insensitively — a
    candidate of the keyword's length matches exactly when its lowercasing
    is the keyword — and the three case-variant example documents parse to
    identical Documents. -/
theorem c8_case_insensitive_keywords :
    (∀ kw ∈ kwList, ∀ (cand rest : Str), cand.length = kw.length →
      (pKw kw (cand ++ rest) = some ((), rest) ↔ cand.map Char.toLower = kw))
    ∧ parseD [] exC8a = parseD [] exC8b
    ∧ parseD [] exC8b = parseD [] exC8c := by
  refine ⟨?_, ?_, ?_⟩
  · intro kw _ cand rest hlen
    unfold pKw
    rw [List.take_left' hlen, List.drop_left' hlen]
    constructor
    · intro h
      by_cases hc : cand.map Char.toLower = kw
      · exact hc
      · rw [if_neg hc] at h; exact absurd h (by simp)
    · intro h
      rw [if_pos h]
  · rfl
  · rfl

/-- Witness for C8: `TaBLe` matches the keyword `table`. -/
theorem c8_case_insensitive_keywords_witness :
    pKw (lc "table") (lc "TaBLe" ++ []) = some ((), []) :=
  (c8_case_insensitive_keywords.1 (lc "table") (by decide) (lc "TaBLe") []
    (by decide)).mpr (by decide)

/-! # C2: type mapping by exact whole-string match -/

def exKin : Str := lc "table t \x7b a kinstant\n b kinstant[]\n c text[] \x7d"

def exFoo : Str := lc "table t \x7b x foo \x7d"

/-- C2 counterexample to the claim as stated: with the caller entry
    `foo ↦ ""` the exact composed type string `foo` is a key of the merged
    table, yet after parse the column's type is still `foo`, not the
    mapped value `""` (the `||` fallback treats the empty string as
    absent). -/
theorem c2_counterexample :
    lookupLastKV (mergedMappings [(lc "foo", [])]) (lc "foo") = some []
    ∧ (allCols (parseD [(lc "foo", [])] exFoo)).map Column.type = [lc "foo"]
    ∧ lc "foo" ≠ ([] : Str) := by
  refine ⟨by rfl, by rfl, by decide⟩

/-- C2 (amended): after parse every Table column's type has been rewritten
    through the merged mapping by exact whole-string lookup — a key with a
    nonempty mapped value is replaced by that value, a key mapped to the
    empty string and every non-key pass through unchanged — and only the
    type field changes.  Mapping `kinstant` rewrites a column of type
    exactly `kinstant` but leaves `kinstant[]` and `text[]` unchanged. -/
theorem c2_type_mapping :
    (∀ (caller : List (Str × Str)) (t v : Str),
        lookupLastKV (mergedMappings caller) t = some v → v ≠ [] →
          mapTypeF (mergedMappings caller) t = v)
    ∧ (∀ (caller : List (Str × Str)) (t : Str),
        lookupLastKV (mergedMappings caller) t = none →
          mapTypeF (mergedMappings caller) t = t)
    ∧ (∀ (caller : List (Str × Str)) (cs : Str) (ast schOut : Schema),
        ohmMatch cs = .ok ast → parseD caller cs = .ok schOut →
          schOut.tables.length = ast.tables.length ∧
          ∀ (i : Nat) (t t' : Table), ast.tables[i]? = some t → schOut.tables[i]? = some t' →
            t'.columns.length = t.columns.length ∧
            ∀ (j : Nat) (c c' : Column), t.columns[j]? = some c → t'.columns[j]? = some c' →
              c'.name = c.name ∧ c'.props = c.props ∧
              c'.type = mapTypeF (mergedMappings caller) c.type)
    ∧ (allCols (parseD [] exKin)).map Column.type
        = [lc "timestamp with time zone", lc "kinstant[]", lc "text[]"] := by
  refine ⟨?_, ?_, ?_, by rfl⟩
  · intro caller t v h hne
    unfold mapTypeF
    rw [h]
    simp [hne]
  · intro caller t h
    unfold mapTypeF
    rw [h]
  · intro caller cs ast schOut h1 h2
    unfold parseD at h2
    rw [h1] at h2
    have hout : schOut = applyTypeMappings (mergedMappings caller) ast :=
      (Except.ok.inj h2).symm
    subst hout
    constructor
    · simp [applyTypeMappings]
    · intro i t t' ht ht'
      simp only [applyTypeMappings, List.getElem?_map, ht, Option.map_some'] at ht'
      have ht'' := Option.some.inj ht'
      subst ht''
      constructor
      · simp
      · intro j c c' hc hc'
        simp only [List.getElem?_map, hc, Option.map_some'] at hc'
        have hc'' := Option.some.inj hc'
        subst hc''
        exact ⟨rfl, rfl, rfl⟩

/-- Witness for C2: the built-in `kinstant` mapping applies. -/
theorem c2_type_mapping_witness :
    mapTypeF (mergedMappings []) (lc "kinstant") = lc "timestamp with time zone" :=
  c2_type_mapping.1 [] (lc "kinstant") (lc "timestamp with time zone")
    (by rfl) (by decide)

/-! # C6: failure offset to line/column -/

/-- Index of the last occurrence of `c` (0-based), if any. -/
def lastIdx (c : Char) : Str → Option Nat
  | [] => none
  | a :: as =>
    match lastIdx c as with
    | some j => some (j + 1)
    | none => if a = c then some 0 else none

/-- Start of the source line containing offset `k`. -/
def lineStart (input : Str) (k : Nat) : Nat :=
  match lastIdx nlC (input.take k) with
  | some j => j + 1
  | none => 0

/-- The offending source line's text at offset `k`. -/
def lineOfOffset (input : Str) (k : Nat) : Str :=
  (input.drop (lineStart input k)).takeWhile (fun c => c != nlC)

theorem splitOnChar_ne_nil (c : Char) (l : Str) : splitOnChar c l ≠ [] := by
  cases l with
  | nil => simp [splitOnChar]
  | cons a as =>
    unfold splitOnChar
    by_cases h : a = c
    · simp [h]
    · simp only [if_neg h]
      cases splitOnChar c as <;> simp

theorem splitOnChar_length (c : Char) :
    ∀ l : Str, (splitOnChar c l).length = l.count c + 1 := by
  intro l
  induction l with
  | nil => simp [splitOnChar]
  | cons a as ih =>
    by_cases h : a = c
    · subst h
      have hsp : splitOnChar a (a :: as) = [] :: splitOnChar a as := by
        simp [splitOnChar]
      rw [hsp, List.length_cons, ih, List.count_cons]
      simp
    · cases hs : splitOnChar c as with
      | nil => exact absurd hs (splitOnChar_ne_nil c as)
      | cons x xs =>
        rw [hs] at ih
        simp only [splitOnChar, if_neg h, hs, List.length_cons]
        simp only [List.length_cons] at ih
        rw [List.count_cons]
        simp only [beq_iff_eq, h, if_false]
        omega

theorem getLastD_irrel {l : List α} (h : l ≠ []) (d d' : α) :
    l.getLastD d = l.getLastD d' := by
  cases l with
  | nil => exact absurd rfl h
  | cons x xs => rfl

theorem lastIdx_none_iff (c : Char) : ∀ l : Str, lastIdx c l = none ↔ c ∉ l := by
  intro l
  induction l with
  | nil => simp [lastIdx]
  | cons a as ih =>
    unfold lastIdx
    cases hs : lastIdx c as with
    | some j =>
      have hmem : c ∈ as := by
        by_contra hm
        have h0 := ih.mpr hm
        rw [h0] at hs
        exact Option.noConfusion hs
      simp [List.mem_cons, hmem]
    | none =>
      have hnotin : c ∉ as := ih.mp hs
      by_cases h : a = c
      · subst h
        simp
      · rw [if_neg h]
        constructor
        · intro _
          simp only [List.mem_cons]
          rintro (h1 | h2)
          · exact h h1.symm
          · exact hnotin h2
        · intro _
          rfl

theorem lastIdx_lt_length (c : Char) :
    ∀ (l : Str) (j : Nat), lastIdx c l = some j → j < l.length := by
  intro l
  induction l with
  | nil => intro j h; simp [lastIdx] at h
  | cons a as ih =>
    intro j h
    unfold lastIdx at h
    cases hs : lastIdx c as with
    | some i =>
      rw [hs] at h
      simp only [Option.some.injEq] at h
      subst h
      exact Nat.succ_lt_succ (ih i hs)
    | none =>
      rw [hs] at h
      by_cases ha : a = c
      · rw [if_pos ha] at h
        simp only [Option.some.injEq] at h
        subst h
        simp
      · rw [if_neg ha] at h
        exact Option.noConfusion h

theorem splitOnChar_getLast (c : Char) :
    ∀ l : Str, (splitOnChar c l).getLastD []
      = (match lastIdx c l with
         | some j => l.drop (j + 1)
         | none => l) := by
  intro l
  induction l with
  | nil => simp [splitOnChar, lastIdx]
  | cons a as ih =>
    by_cases h : a = c
    · subst h
      have hsp : splitOnChar a (a :: as) = [] :: splitOnChar a as := by
        simp [splitOnChar]
      cases hs : lastIdx a as with
      | some j =>
        have hli : lastIdx a (a :: as) = some (j + 1) := by
          simp [lastIdx, hs]
        rw [hs] at ih
        rw [hsp, hli, List.getLastD_cons, ih]
        simp [List.drop_succ_cons]
      | none =>
        have hli : lastIdx a (a :: as) = some 0 := by
          simp [lastIdx, hs]
        rw [hs] at ih
        rw [hsp, hli, List.getLastD_cons, ih]
        simp
    · cases hs : splitOnChar c as with
      | nil => exact absurd hs (splitOnChar_ne_nil c as)
      | cons x xs =>
        have hsp : splitOnChar c (a :: as) = (a :: x) :: xs := by
          simp only [splitOnChar, if_neg h, hs]
        cases hl : lastIdx c as with
        | some j =>
          have hli : lastIdx c (a :: as) = some (j + 1) := by
            simp [lastIdx, hl]
          have hxs : xs ≠ [] := by
            intro hxe
            have hlen := splitOnChar_length c as
            rw [hs, hxe] at hlen
            simp only [List.length_cons, List.length_nil] at hlen
            have hcnt : as.count c = 0 := by omega
            rw [(lastIdx_none_iff c as).mpr (List.count_eq_zero.mp hcnt)] at hl
            exact Option.noConfusion hl
          obtain ⟨y, ys, rfl⟩ := List.exists_cons_of_ne_nil hxs
          rw [hl, hs] at ih
          rw [hsp, hli]
          simp only [List.getLastD_cons] at ih ⊢
          rw [ih]
          simp [List.drop_succ_cons]
        | none =>
          have hli : lastIdx c (a :: as) = none := by
            simp [lastIdx, hl, if_neg h]
          have hcnt : as.count c = 0 :=
            List.count_eq_zero.mpr ((lastIdx_none_iff c as).mp hl)
          have hlen := splitOnChar_length c as
          rw [hs, hcnt] at hlen
          simp only [List.length_cons] at hlen
          have hxe : xs = [] := List.length_eq_zero.mp (by omega)
          subst hxe
          rw [hl, hs] at ih
          rw [hsp, hli]
          simp only [List.getLastD_cons, List.getLastD_nil] at ih ⊢
          simpa using ih

def startOf (c : Char) (l : Str) (k : Nat) : Nat :=
  match lastIdx c (l.take k) with
  | some j => j + 1
  | none => 0

theorem lineStart_eq_startOf (input : Str) (k : Nat) :
    lineStart input k = startOf nlC input k := rfl

theorem startOf_some {c : Char} {l : Str} {k j : Nat}
    (hl : lastIdx c (l.take k) = some j) : startOf c l k = j + 1 := by
  simp [startOf, hl]

theorem startOf_none {c : Char} {l : Str} {k : Nat}
    (hl : lastIdx c (l.take k) = none) : startOf c l k = 0 := by
  simp [startOf, hl]

/-- The piece of the split at index `(l.take k).count c` is the text of
    the line containing offset `k`. -/
theorem splitOnChar_getD_count (c : Char) :
    ∀ (l : Str) (k : Nat), k ≤ l.length →
      (splitOnChar c l).getD ((l.take k).count c) []
        = (l.drop (startOf c l k)).takeWhile (fun x => x != c) := by
  intro l
  induction l with
  | nil =>
    intro k hk
    have hk0 : k = 0 := Nat.le_zero.mp hk
    subst hk0
    simp [splitOnChar, lastIdx, startOf]
  | cons a as ih =>
    intro k hk
    cases k with
    | zero =>
      have hst : startOf c (a :: as) 0 = 0 := startOf_none (by simp [lastIdx])
      rw [hst]
      simp only [List.take_zero, List.count_nil, List.drop_zero]
      by_cases h : a = c
      · subst h
        have hsp : splitOnChar a (a :: as) = [] :: splitOnChar a as := by
          simp [splitOnChar]
        rw [hsp]
        rw [@takeWhile_cons_false Char (fun x => x != a) a (by simp) as]
        simp
      · cases hs : splitOnChar c as with
        | nil => exact absurd hs (splitOnChar_ne_nil c as)
        | cons x xs =>
          have hsp : splitOnChar c (a :: as) = (a :: x) :: xs := by
            simp only [splitOnChar, if_neg h, hs]
          have h0 := ih 0 (Nat.zero_le _)
          rw [hs, startOf_none (by simp [lastIdx])] at h0
          simp only [List.take_zero, List.count_nil, List.drop_zero,
            List.getD_cons_zero] at h0
          rw [hsp]
          simp only [List.getD_cons_zero]
          have hne : (a != c) = true := by simp [h]
          rw [List.takeWhile_cons, if_pos hne, h0]
    | succ k' =>
      have hk' : k' ≤ as.length := by simpa using hk
      have htake : (a :: as).take (k' + 1) = a :: as.take k' := by
        simp [List.take_succ_cons]
      by_cases h : a = c
      · subst h
        have hsp : splitOnChar a (a :: as) = [] :: splitOnChar a as := by
          simp [splitOnChar]
        have hcnt : ((a :: as).take (k' + 1)).count a = (as.take k').count a + 1 := by
          rw [htake, List.count_cons]
          simp
        rw [hsp, hcnt, List.getD_cons_succ]
        have ihk := ih k' hk'
        cases hl : lastIdx a (as.take k') with
        | some j =>
          rw [startOf_some hl] at ihk
          have hl2 : lastIdx a ((a :: as).take (k' + 1)) = some (j + 1) := by
            rw [htake]
            simp [lastIdx, hl]
          rw [startOf_some hl2, List.drop_succ_cons]
          exact ihk
        | none =>
          rw [startOf_none hl] at ihk
          have hl2 : lastIdx a ((a :: as).take (k' + 1)) = some 0 := by
            rw [htake]
            simp [lastIdx, hl]
          rw [startOf_some hl2, List.drop_succ_cons]
          exact ihk
      · have hcnt : ((a :: as).take (k' + 1)).count c = (as.take k').count c := by
          rw [htake, List.count_cons]
          simp [h]
        cases hs : splitOnChar c as with
        | nil => exact absurd hs (splitOnChar_ne_nil c as)
        | cons x xs =>
          have hsp : splitOnChar c (a :: as) = (a :: x) :: xs := by
            simp only [splitOnChar, if_neg h, hs]
          have ihk := ih k' hk'
          rw [hs] at ihk
          cases hcz : (as.take k').count c with
          | zero =>
            have hl : lastIdx c (as.take k') = none :=
              (lastIdx_none_iff c _).mpr (List.count_eq_zero.mp hcz)
            have hl2 : lastIdx c ((a :: as).take (k' + 1)) = none := by
              rw [htake]
              simp [lastIdx, hl, if_neg h]
            rw [hcnt, hcz, startOf_none hl2, List.drop_zero]
            rw [hcz, startOf_none hl, List.drop_zero, List.getD_cons_zero] at ihk
            rw [hsp]
            simp only [List.getD_cons_zero]
            have hne : (a != c) = true := by simp [h]
            rw [List.takeWhile_cons, if_pos hne, ihk]
          | succ n =>
            have hl : ∃ j, lastIdx c (as.take k') = some j := by
              cases hlc : lastIdx c (as.take k') with
              | some j => exact ⟨j, rfl⟩
              | none =>
                have h0 := List.count_eq_zero.mpr ((lastIdx_none_iff c _).mp hlc)
                omega
            obtain ⟨j, hj⟩ := hl
            have hl2 : lastIdx c ((a :: as).take (k' + 1)) = some (j + 1) := by
              rw [htake]
              simp [lastIdx, hj]
            rw [hcnt, hcz, startOf_some hl2, List.drop_succ_cons]
            rw [hcz, startOf_some hj, List.getD_cons_succ] at ihk
            rw [hsp, List.getD_cons_succ]
            exact ihk

/-- C6: for a failure at offset `k`, the reported line is (number of
    newlines before `k`) + 1 and the column is `k` minus the index of the
    last newline before `k` (or `k + 1` when none precedes), both
    1-based; the formatted message contains the offending source line
    followed by a caret aligned to that column. -/
theorem c6_error_position :
    ∀ (input : Str) (k : Nat) (msg : Str) (exp : Option (List Str)),
      k ≤ input.length →
      (mkParseError ⟨input, k, msg, exp⟩).line = (input.take k).count nlC + 1
      ∧ (mkParseError ⟨input, k, msg, exp⟩).column
          = (match lastIdx nlC (input.take k) with
             | some j => k - j
             | none => k + 1)
      ∧ ∃ pre, getFormattedMessage (mkParseError ⟨input, k, msg, exp⟩)
          = pre ++ (lineOfOffset input k
              ++ nlC :: (List.replicate
                  ((mkParseError ⟨input, k, msg, exp⟩).column - 1) ' ' ++ [caretC])) := by
  intro input k msg exp hk
  have htlen : (input.take k).length = k := by
    rw [List.length_take]
    omega
  have hline : (mkParseError ⟨input, k, msg, exp⟩).line
      = (input.take k).count nlC + 1 := by
    show (splitOnChar nlC (input.take k)).length = _
    exact splitOnChar_length nlC (input.take k)
  have hcol : (mkParseError ⟨input, k, msg, exp⟩).column
      = (match lastIdx nlC (input.take k) with
         | some j => k - j
         | none => k + 1) := by
    show ((splitOnChar nlC (input.take k)).getLastD []).length + 1 = _
    rw [splitOnChar_getLast]
    cases hl : lastIdx nlC (input.take k) with
    | some j =>
      have hj := lastIdx_lt_length nlC (input.take k) j hl
      rw [htlen] at hj
      simp only [List.length_drop, htlen]
      have hpos : 0 < k - j := Nat.sub_pos_of_lt hj
      rw [← Nat.sub_sub]
      exact Nat.succ_pred_eq_of_pos hpos
    | none =>
      simp only [htlen]
  refine ⟨hline, hcol, ?_⟩
  have hidx : (input.take k).count nlC < (splitOnChar nlC input).length := by
    rw [splitOnChar_length]
    have hsub : (input.take k).count nlC ≤ input.count nlC :=
      (List.take_sublist k input).count_le nlC
    omega
  have herr : (splitOnChar nlC input).getD ((input.take k).count nlC) (lc "undefined")
      = lineOfOffset input k := by
    rw [List.getD_eq_getElem _ _ hidx, ← List.getD_eq_getElem _ ([] : Str) hidx]
    rw [splitOnChar_getD_count nlC input k hk]
    rfl
  refine ⟨(mkParseError ⟨input, k, msg, exp⟩).message ++ [nlC, nlC] ++ lc "Line "
      ++ natStr (mkParseError ⟨input, k, msg, exp⟩).line ++ lc ", column "
      ++ natStr (mkParseError ⟨input, k, msg, exp⟩).column ++ [':', nlC], ?_⟩
  have hl1 : (mkParseError ⟨input, k, msg, exp⟩).line - 1 = (input.take k).count nlC := by
    rw [hline]
    omega
  unfold getFormattedMessage
  have hinp : (mkParseError ⟨input, k, msg, exp⟩).input = input := rfl
  rw [hinp, hl1]
  simp only [herr]
  simp [List.append_assoc]

/-- Witness for C6 at input `ab\ncd`, offset 4. -/
theorem c6_error_position_witness :
    (mkParseError ⟨lc "ab\ncd", 4, matchFailMessage, none⟩).line = 2
    ∧ (mkParseError ⟨lc "ab\ncd", 4, matchFailMessage, none⟩).column = 2 := by
  have h := c6_error_position (lc "ab\ncd") 4 matchFailMessage none (by decide)
  refine ⟨h.1.trans (by decide), h.2.1.trans (by decide)⟩

/-! # C1 / C10: order preservation in the Table and TablePartial actions -/

/-- The tagged entry a body element contributes to `elements` (claim-side). -/
def elemTagOf : BodyElem → Option TElem
  | .bcolumn a => some (.tcolumn (colOfAst a))
  | .bpartialRef n => some (.tpartialRef n)
  | _ => none

/-- Extract the column of a Column-tagged entry (claim-side). -/
def colOfT : TElem → Option Column
  | .tcolumn c => some c
  | .tpartialRef _ => none

def etableOf : ElementAst → Option Table
  | .etable t => some t
  | _ => none

def epartOf : ElementAst → Option PartialTable
  | .epart p => some p
  | _ => none

def bcolumnOf : BodyElem → Option Column
  | .bcolumn a => some (colOfAst a)
  | _ => none

theorem foldl_tableStep_elements :
    ∀ (body : List BodyElem) (t0 : Table),
      (body.foldl tableStep t0).elements = t0.elements ++ body.filterMap elemTagOf := by
  intro body
  induction body with
  | nil => intro t0; simp
  | cons e body ih =>
    intro t0
    rw [List.foldl_cons, ih]
    cases e <;> simp [tableStep, elemTagOf, List.append_assoc]

theorem foldl_tableStep_columns :
    ∀ (body : List BodyElem) (t0 : Table),
      (body.foldl tableStep t0).columns
        = t0.columns ++ body.filterMap (fun e => (elemTagOf e).bind colOfT) := by
  intro body
  induction body with
  | nil => intro t0; simp
  | cons e body ih =>
    intro t0
    rw [List.foldl_cons, ih]
    cases e <;> simp [tableStep, elemTagOf, colOfT, List.append_assoc]

theorem tableOf_elements (sch : Option Str) (nm : Str) (al : Option Str)
    (body : List BodyElem) :
    (tableOf sch nm al body).elements = body.filterMap elemTagOf := by
  unfold tableOf
  rw [foldl_tableStep_elements]
  rfl

theorem tableOf_columns (sch : Option Str) (nm : Str) (al : Option Str)
    (body : List BodyElem) :
    (tableOf sch nm al body).columns
      = ((tableOf sch nm al body).elements).filterMap colOfT := by
  unfold tableOf
  rw [foldl_tableStep_elements, foldl_tableStep_columns]
  simp [List.filterMap_filterMap]

theorem foldl_partialStep_columns :
    ∀ (body : List BodyElem) (t0 : PartialTable),
      (body.foldl partialStep t0).columns = t0.columns ++ body.filterMap bcolumnOf := by
  intro body
  induction body with
  | nil => intro t0; simp
  | cons e body ih =>
    intro t0
    rw [List.foldl_cons, ih]
    cases e <;> simp [partialStep, bcolumnOf, List.append_assoc]

theorem partialOf_columns (nm : Str) (body : List BodyElem) :
    (partialOf nm body).columns = body.filterMap bcolumnOf := by
  unfold partialOf
  rw [foldl_partialStep_columns]
  rfl

theorem foldl_schemaStep_tables :
    ∀ (els : List ElementAst) (s0 : Schema),
      (els.foldl schemaStep s0).tables = s0.tables ++ els.filterMap etableOf := by
  intro els
  induction els with
  | nil => intro s0; simp
  | cons e els ih =>
    intro s0
    rw [List.foldl_cons, ih]
    cases e <;> simp [schemaStep, etableOf, List.append_assoc]

theorem foldl_schemaStep_partials :
    ∀ (els : List ElementAst) (s0 : Schema),
      (els.foldl schemaStep s0).partials = s0.partials ++ els.filterMap epartOf := by
  intro els
  induction els with
  | nil => intro s0; simp
  | cons e els ih =>
    intro s0
    rw [List.foldl_cons, ih]
    cases e <;> simp [schemaStep, epartOf, List.append_assoc]

theorem colOfT_mapElem (m : List (Str × Str)) (e : TElem) :
    colOfT (mapElem m e) = (colOfT e).map (mapCol m) := by
  cases e <;> rfl

/-- The Type Mapper keeps the `columns = elements.filterMap colOfT`
    invariant: it rewrites the shared column objects through both lists. -/
theorem mapped_table_invariant (m : List (Str × Str)) (t : Table)
    (h : t.columns = t.elements.filterMap colOfT) :
    t.columns.map (mapCol m) = (t.elements.map (mapElem m)).filterMap colOfT := by
  rw [List.filterMap_map]
  have hfe : (colOfT ∘ mapElem m) = fun e => (colOfT e).map (mapCol m) :=
    funext (colOfT_mapElem m)
  rw [hfe, ← List.map_filterMap, ← h]

/-! Shape of each `Element` alternative's output -/

theorem pTableE_shape {s : Str} {x : ElementAst × Str} (h : pTableE s = some x) :
    ∃ sch nm al body, x.1 = .etable (tableOf sch nm al body) := by
  unfold pTableE at h
  simp only [bindP_def, pureP_def] at h
  rcases pbind_eq_some h with ⟨_, r1, _, h⟩
  rcases pbind_eq_some h with ⟨qi, r2, _, h⟩
  rcases pbind_eq_some h with ⟨al, r3, _, h⟩
  rcases pbind_eq_some h with ⟨_, r4, _, h⟩
  rcases pbind_eq_some h with ⟨body, r5, _, h⟩
  rcases pbind_eq_some h with ⟨_, r6, _, h⟩
  unfold pret at h
  exact ⟨qi.1, qi.2, al, body, by cases h; rfl⟩

theorem pProjectE_shape {s : Str} {x : ElementAst × Str} (h : pProjectE s = some x) :
    ∃ p, x.1 = .eproject p := by
  unfold pProjectE at h
  simp only [bindP_def, pureP_def] at h
  rcases pbind_eq_some h with ⟨_, r1, _, h⟩
  rcases pbind_eq_some h with ⟨n, r2, _, h⟩
  rcases pbind_eq_some h with ⟨_, r3, _, h⟩
  rcases pbind_eq_some h with ⟨props, r4, _, h⟩
  rcases pbind_eq_some h with ⟨_, r5, _, h⟩
  unfold pret at h
  exact ⟨_, by cases h; rfl⟩

theorem pTablePartialE_shape {s : Str} {x : ElementAst × Str}
    (h : pTablePartialE s = some x) :
    ∃ nm body, x.1 = .epart (partialOf nm body) := by
  unfold pTablePartialE at h
  simp only [bindP_def, pureP_def] at h
  rcases pbind_eq_some h with ⟨_, r1, _, h⟩
  rcases pbind_eq_some h with ⟨n, r2, _, h⟩
  rcases pbind_eq_some h with ⟨_, r3, _, h⟩
  rcases pbind_eq_some h with ⟨body, r4, _, h⟩
  rcases pbind_eq_some h with ⟨_, r5, _, h⟩
  unfold pret at h
  exact ⟨n, body, by cases h; rfl⟩

theorem pRefE_shape {s : Str} {x : ElementAst × Str} (h : pRefE s = some x) :
    ∃ r, x.1 = .eref r := by
  unfold pRefE at h
  simp only [bindP_def, pureP_def] at h
  rcases pbind_eq_some h with ⟨_, r1, _, h⟩
  rcases pbind_eq_some h with ⟨nm, r2, _, h⟩
  rcases pbind_eq_some h with ⟨_, r3, _, h⟩
  rcases pbind_eq_some h with ⟨f, r4, _, h⟩
  rcases pbind_eq_some h with ⟨rt, r5, _, h⟩
  rcases pbind_eq_some h with ⟨t, r6, _, h⟩
  rcases pbind_eq_some h with ⟨st, r7, _, h⟩
  unfold pret at h
  exact ⟨_, by cases h; rfl⟩

theorem pEnumE_shape {s : Str} {x : ElementAst × Str} (h : pEnumE s = some x) :
    ∃ e, x.1 = .eenum e := by
  unfold pEnumE at h
  simp only [bindP_def, pureP_def] at h
  rcases pbind_eq_some h with ⟨_, r1, _, h⟩
  rcases pbind_eq_some h with ⟨n, r2, _, h⟩
  rcases pbind_eq_some h with ⟨_, r3, _, h⟩
  rcases pbind_eq_some h with ⟨vs, r4, _, h⟩
  rcases pbind_eq_some h with ⟨_, r5, _, h⟩
  unfold pret at h
  exact ⟨_, by cases h; rfl⟩

theorem pTableGroupE_shape {s : Str} {x : ElementAst × Str}
    (h : pTableGroupE s = some x) : ∃ g, x.1 = .egroup g := by
  unfold pTableGroupE at h
  simp only [bindP_def, pureP_def] at h
  rcases pbind_eq_some h with ⟨_, r1, _, h⟩
  rcases pbind_eq_some h with ⟨n, r2, _, h⟩
  rcases pbind_eq_some h with ⟨_, r3, _, h⟩
  rcases pbind_eq_some h with ⟨ts, r4, _, h⟩
  rcases pbind_eq_some h with ⟨_, r5, _, h⟩
  unfold pret at h
  exact ⟨_, by cases h; rfl⟩

/-- The invariants carried by every element the parser can produce. -/
def elemInvariant : ElementAst → Prop
  | .etable t => t.columns = t.elements.filterMap colOfT
      ∧ ∃ sch nm al body, t = tableOf sch nm al body
  | .epart p => ∃ nm body, p = partialOf nm body
  | _ => True

theorem pElement_invariant {s : Str} {x : ElementAst × Str}
    (h : pElement s = some x) : elemInvariant x.1 := by
  unfold pElement at h
  rcases palt_eq_some h with h | h
  · obtain ⟨p, hp⟩ := pProjectE_shape h
    rw [hp]; trivial
  rcases palt_eq_some h with h | h
  · obtain ⟨sch, nm, al, body, hp⟩ := pTableE_shape h
    rw [hp]
    exact ⟨tableOf_columns sch nm al body, sch, nm, al, body, rfl⟩
  rcases palt_eq_some h with h | h
  · obtain ⟨nm, body, hp⟩ := pTablePartialE_shape h
    rw [hp]
    exact ⟨nm, body, rfl⟩
  rcases palt_eq_some h with h | h
  · obtain ⟨r, hp⟩ := pRefE_shape h
    rw [hp]; trivial
  rcases palt_eq_some h with h | h
  · obtain ⟨e, hp⟩ := pEnumE_shape h
    rw [hp]; trivial
  · obtain ⟨g, hp⟩ := pTableGroupE_shape h
    rw [hp]; trivial

/-- Inversion of a successful match: the elements come from `pElement`. -/
theorem ohmMatch_ok_inv {cs : Str} {ast : Schema} (h : ohmMatch cs = .ok ast) :
    ∃ els : List ElementAst, ast = schemaOf els ∧ ∀ e ∈ els, elemInvariant e := by
  unfold ohmMatch at h
  cases hrun : (do pws; let els ← pmany pElement; pws; pret els : P (List ElementAst)) cs with
  | none => rw [hrun] at h; exact absurd h (by simp)
  | some pr =>
    obtain ⟨els, rest⟩ := pr
    rw [hrun] at h
    cases rest with
    | cons a r => simp at h
    | nil =>
      simp only [] at h
      have hast : ast = schemaOf els := (Except.ok.inj h).symm
      simp only [bindP_def, pureP_def] at hrun
      rcases pbind_eq_some hrun with ⟨_, r1, _, hrun⟩
      rcases pbind_eq_some hrun with ⟨els', r2, hm, hrun⟩
      rcases pbind_eq_some hrun with ⟨_, r3, _, hrun⟩
      unfold pret at hrun
      have hels : els' = els := by cases hrun; rfl
      subst hels
      refine ⟨els', hast, ?_⟩
      intro e he
      obtain ⟨s', r', hp⟩ := pmany_mem hm e he
      exact pElement_invariant hp

/-- Every table of a parse result satisfies the columns/elements invariant. -/
theorem parse_tables_invariant {caller : List (Str × Str)} {cs : Str} {sch : Schema}
    (h : parseD caller cs = .ok sch) :
    ∀ t ∈ sch.tables, t.columns = t.elements.filterMap colOfT := by
  unfold parseD at h
  cases hm : ohmMatch cs with
  | error f => rw [hm] at h; exact absurd h (by simp)
  | ok ast =>
    rw [hm] at h
    have hs : sch = applyTypeMappings (mergedMappings caller) ast :=
      (Except.ok.inj h).symm
    obtain ⟨els, hast, hinv⟩ := ohmMatch_ok_inv hm
    subst hs
    subst hast
    intro t ht
    simp only [applyTypeMappings, List.mem_map] at ht
    obtain ⟨t0, ht0, rfl⟩ := ht
    have htab : (schemaOf els).tables = els.filterMap etableOf := by
      unfold schemaOf
      rw [foldl_schemaStep_tables]
      rfl
    rw [htab, List.mem_filterMap] at ht0
    obtain ⟨e, he, het⟩ := ht0
    have hi := hinv e he
    cases e with
    | etable t1 =>
      simp only [etableOf, Option.some.injEq] at het
      subst het
      obtain ⟨hcols, -⟩ := hi
      exact mapped_table_invariant _ _ hcols
    | eproject p => simp [etableOf] at het
    | epart p => simp [etableOf] at het
    | eref r => simp [etableOf] at het
    | eenum e => simp [etableOf] at het
    | egroup g => simp [etableOf] at het

/-! # C1: the claim's literal example and the amended statement -/

def exC1 : Str := lc "table t \x7b a col1\n ~p\n b col2\n ~q\n c col3 \x7d"

def exC1semi : Str := lc "table t \x7b a col1; ~p; b col2; ~q; c col3 \x7d"

/-- C1 counterexample to the claim as stated: the spec's table body
    `a col1; ~p; b col2; ~q; c col3` — with literal semicolons — does not
    parse at all (no grammar rule matches `;`), so it yields no `elements`
    sequence. -/
theorem c1_order_counterexample :
    isOkE (parseD [] exC1semi) = false ∧ (validateD exC1semi).valid = false :=
  ⟨rfl, rfl⟩

/-- C1 (amended: the five body elements are separated by whitespace, not
    semicolons): a parsed table body yields one tagged entry per column
    and per `~name` in exact source order, `columns` is the ordered
    sub-sequence of Column-tagged entries — an invariant that holds for
    every table of every successful parse — and the example body yields
    five elements in order with `columns` the three columns. -/
theorem c1_elements_order :
    (∀ (sch : Option Str) (nm : Str) (al : Option Str) (body : List BodyElem),
        (tableOf sch nm al body).elements = body.filterMap elemTagOf
        ∧ (tableOf sch nm al body).columns
            = ((tableOf sch nm al body).elements).filterMap colOfT)
    ∧ (∀ (caller : List (Str × Str)) (cs : Str) (sch : Schema),
        parseD caller cs = .ok sch →
          ∀ t ∈ sch.tables, t.columns = t.elements.filterMap colOfT)
    ∧ (tablesOfR (parseD [] exC1)).map Table.elements
        = [[.tcolumn ⟨lc "a", lc "col1", {}⟩, .tpartialRef (lc "p"),
            .tcolumn ⟨lc "b", lc "col2", {}⟩, .tpartialRef (lc "q"),
            .tcolumn ⟨lc "c", lc "col3", {}⟩]]
    ∧ (tablesOfR (parseD [] exC1)).map Table.columns
        = [[⟨lc "a", lc "col1", {}⟩, ⟨lc "b", lc "col2", {}⟩,
            ⟨lc "c", lc "col3", {}⟩]] := by
  refine ⟨?_, ?_, by rfl, by rfl⟩
  · intro sch nm al body
    exact ⟨tableOf_elements sch nm al body, tableOf_columns sch nm al body⟩
  · intro caller cs sch h
    exact parse_tables_invariant h

def c1ExpectedTable : Table :=
  { name := lc "t",
    columns := [⟨lc "a", lc "col1", {}⟩, ⟨lc "b", lc "col2", {}⟩,
                ⟨lc "c", lc "col3", {}⟩],
    elements := [.tcolumn ⟨lc "a", lc "col1", {}⟩, .tpartialRef (lc "p"),
                 .tcolumn ⟨lc "b", lc "col2", {}⟩, .tpartialRef (lc "q"),
                 .tcolumn ⟨lc "c", lc "col3", {}⟩] }

def c1ExpectedSchema : Schema := { tables := [c1ExpectedTable] }

/-- Witness for C1's parse-level invariant at the example document. -/
theorem c1_elements_order_witness :
    c1ExpectedTable.columns = c1ExpectedTable.elements.filterMap colOfT := by
  have h := c1_elements_order.2.1 [] exC1 c1ExpectedSchema (by rfl)
  exact h c1ExpectedTable (by simp [c1ExpectedSchema, c1ExpectedTable])

/-! # C5: parse vs. validate -/

/-- C5: for every input, parse returns a Document exactly when validate
    reports valid; on a match failure parse fails with the single
    diagnostic built by the ParseError constructor (line, column, message,
    expected) and no document, while validate returns non-throwing
    `{valid: false}` with the engine's raw message, building no document
    and applying no type mapping; on success validate carries no error. -/
theorem c5_parse_validate :
    ∀ (cs : Str) (caller : List (Str × Str)),
      ((∃ sch, parseD caller cs = .ok sch) ↔ (validateD cs).valid = true)
      ∧ (∀ f, ohmMatch cs = .error f →
          parseD caller cs = .error (mkParseError f)
          ∧ validateD cs = { valid := false, error := some f.message })
      ∧ (∀ ast, ohmMatch cs = .ok ast →
          parseD caller cs = .ok (applyTypeMappings (mergedMappings caller) ast)
          ∧ validateD cs = { valid := true, error := none }) := by
  intro cs caller
  refine ⟨?_, ?_, ?_⟩
  · cases hm : ohmMatch cs with
    | ok ast =>
      simp [parseD, validateD, hm]
    | error f =>
      simp [parseD, validateD, hm]
  · intro f hf
    simp [parseD, validateD, hf]
  · intro ast ha
    simp [parseD, validateD, ha]

def exC5bad : Str := lc "!!"

/-- Witness for C5 at a concrete failing input. -/
theorem c5_parse_validate_witness :
    parseD [] exC5bad = .error (mkParseError ⟨exC5bad, 0, matchFailMessage, none⟩)
    ∧ validateD exC5bad = { valid := false, error := some matchFailMessage } :=
  (c5_parse_validate exC5bad []).2.1 ⟨exC5bad, 0, matchFailMessage, none⟩ (by rfl)

/-! # C10: the Type Mapper's frame -/

def partialsOfR : Except ParseErrorT Schema → List PartialTable
  | .ok s => s.partials
  | .error _ => []

def exC10 : Str :=
  lc "tablepartial ts \x7b created kinstant \x7d table t \x7b x kinstant \x7d"

/-- C10: the Type Mapper rewrites only Table columns' type fields: every
    other Document field — partials, refs, enums, tableGroups, project,
    name, and every Table field other than the type inside `columns` and
    `elements` — is unchanged; TablePartial columns keep the composed
    source type string with no alias substitution, as the concrete example
    shows (`kinstant` mapped in the table, untouched in the partial). -/
theorem c10_mapper_frame :
    (∀ (m : List (Str × Str)) (s : Schema),
        (applyTypeMappings m s).partials = s.partials
        ∧ (applyTypeMappings m s).refs = s.refs
        ∧ (applyTypeMappings m s).enums = s.enums
        ∧ (applyTypeMappings m s).tableGroups = s.tableGroups
        ∧ (applyTypeMappings m s).project = s.project
        ∧ (applyTypeMappings m s).name = s.name)
    ∧ (∀ (m : List (Str × Str)) (s : Schema) (i : Nat) (t t' : Table),
        s.tables[i]? = some t → (applyTypeMappings m s).tables[i]? = some t' →
          t'.name = t.name ∧ t'.schema = t.schema ∧ t'.aliasT = t.aliasT
          ∧ t'.indexes = t.indexes ∧ t'.constraints = t.constraints
          ∧ t'.noteV = t.noteV ∧ t'.headerColor = t.headerColor
          ∧ t'.columns = t.columns.map (mapCol m)
          ∧ t'.elements = t.elements.map (mapElem m))
    ∧ (∀ (nm : Str) (body : List BodyElem),
        (partialOf nm body).columns = body.filterMap bcolumnOf)
    ∧ (∀ (caller : List (Str × Str)) (cs : Str) (ast sch : Schema),
        ohmMatch cs = .ok ast → parseD caller cs = .ok sch →
          sch.partials = ast.partials)
    ∧ (partialsOfR (parseD [] exC10)).map (fun p => p.columns.map Column.type)
        = [[lc "kinstant"]]
    ∧ (allCols (parseD [] exC10)).map Column.type
        = [lc "timestamp with time zone"] := by
  refine ⟨?_, ?_, partialOf_columns, ?_, by rfl, by rfl⟩
  · intro m s
    exact ⟨rfl, rfl, rfl, rfl, rfl, rfl⟩
  · intro m s i t t' ht ht'
    simp only [applyTypeMappings, List.getElem?_map, ht, Option.map_some'] at ht'
    have ht'' := Option.some.inj ht'
    subst ht''
    exact ⟨rfl, rfl, rfl, rfl, rfl, rfl, rfl, rfl, rfl⟩
  · intro caller cs ast sch h1 h2
    unfold parseD at h2
    rw [h1] at h2
    have hs : sch = applyTypeMappings (mergedMappings caller) ast :=
      (Except.ok.inj h2).symm
    subst hs
    rfl

/-- Witness for C10's per-table frame at a concrete schema. -/
theorem c10_mapper_frame_witness :
    c1ExpectedTable.columns = c1ExpectedTable.columns.map (mapCol (mergedMappings [])) := by
  have h := c10_mapper_frame.2.1 (mergedMappings []) c1ExpectedSchema 0
    c1ExpectedTable c1ExpectedTable (by rfl) (by rfl)
  exact h.2.2.2.2.2.2.2.1

/-! # C7: bare identifiers vs. reserved words -/

theorem toLower_eq_of_not_ident (c : Char) (h : isIdentC c = false) :
    Char.toLower c = c := by
  show (if c.toNat ≥ 65 ∧ c.toNat ≤ 90 then Char.ofNat (c.toNat + 32) else c) = c
  split
  · next hcond =>
    exfalso
    have hu : c.isUpper = true := by
      unfold Char.isUpper
      have h1 : (65 : UInt32) ≤ c.val := hcond.1
      have h2 : c.val ≤ (90 : UInt32) := hcond.2
      simp [h1, h2]
    simp [isIdentC, Char.isAlpha, hu] at h
  · rfl

theorem toLower_not_ident (c : Char) (h : isIdentC c = false) :
    isIdentC (Char.toLower c) = false := by
  rw [toLower_eq_of_not_ident c h]
  exact h

/-- Shape of a bare-identifier run: letter-or-underscore head, then
    letters, digits and underscores. -/
def identShapeB : Str → Bool
  | [] => false
  | c :: cs => (c.isAlpha || c = '_') && cs.all isIdentC

/-- The character following the run (if any) is not an identifier
    character, i.e. the run is maximal. -/
def bdryOkB : Str → Bool
  | [] => true
  | c :: _ => !(isIdentC c)

/-- The reserved words that actually block an identifier: the ordered
    choice inside `reservedWord` commits to the prefix `table` on
    `tablepartial` and `tablegroup` and then fails its boundary check, so
    those two never match. -/
def sixReserved : List Str :=
  [lc "project", lc "table", lc "ref", lc "enum", lc "indexes", lc "constraints"]

theorem identShapeB_all {w : Str} (hw : identShapeB w = true) :
    ∀ x ∈ w, isIdentC x = true := by
  cases w with
  | nil => simp [identShapeB] at hw
  | cons c cs =>
    simp only [identShapeB, Bool.and_eq_true, List.all_eq_true] at hw
    intro x hx
    rcases List.mem_cons.mp hx with rfl | hx2
    · rcases (Bool.or_eq_true _ _).mp hw.1 with h | h
      · simp [isIdentC, h]
      · simp [isIdentC, h]
    · exact hw.2 x hx2

theorem bdryOkB_head {rest : Str} {c : Char} (hb : bdryOkB rest = true)
    (h : rest = c :: rest.tail) : isIdentC c = false := by
  cases rest with
  | nil => exact absurd h (by simp)
  | cons d ds =>
    simp only [List.cons.injEq] at h
    rw [← h.1]
    simpa [bdryOkB] using hb

/-- A keyword made of identifier characters, matched at the start of a
    maximal identifier run: it matches exactly when it is a
    case-insensitive prefix of the run. -/
theorem pKw_shaped {w rest kw : Str} (_hw : identShapeB w = true)
    (hb : bdryOkB rest = true) (hkw : ∀ c ∈ kw, isIdentC c = true) :
    pKw kw (w ++ rest)
      = if (w.map Char.toLower).take kw.length = kw ∧ kw.length ≤ w.length
        then some ((), w.drop kw.length ++ rest) else none := by
  unfold pKw
  by_cases hcond : ((w ++ rest).take kw.length).map Char.toLower = kw
  · have hle : kw.length ≤ w.length := by
      by_contra hgt
      push_neg at hgt
      cases hr : rest with
      | nil =>
        rw [hr, List.append_nil] at hcond
        have hlen := congrArg List.length hcond
        simp only [List.length_map, List.length_take] at hlen
        omega
      | cons c rs =>
        have hbc : isIdentC c = false := by
          rw [hr] at hb
          simpa [bdryOkB] using hb
        rw [hr, List.take_append_eq_append_take] at hcond
        obtain ⟨m, hm⟩ : ∃ m, kw.length - w.length = m + 1 :=
          ⟨kw.length - w.length - 1, by omega⟩
        rw [hm] at hcond
        simp only [List.take_succ_cons, List.map_append, List.map_cons] at hcond
        have hmem : Char.toLower c ∈ kw := by
          rw [← hcond]
          exact List.mem_append_right _ (List.mem_cons_self _ _)
        have hid := hkw _ hmem
        rw [toLower_not_ident c hbc] at hid
        exact Bool.noConfusion hid
    have hcond2 : (w.map Char.toLower).take kw.length = kw := by
      rw [List.take_append_of_le_length hle, List.map_take] at hcond
      exact hcond
    rw [if_pos hcond, if_pos ⟨hcond2, hle⟩, List.drop_append_of_le_length hle]
  · rw [if_neg hcond]
    by_cases hc2 : (w.map Char.toLower).take kw.length = kw ∧ kw.length ≤ w.length
    · exfalso
      apply hcond
      rw [List.take_append_of_le_length hc2.2, List.map_take]
      exact hc2.1
    · rw [if_neg hc2]

theorem drop_cons_ident {w : Str} (hw : identShapeB w = true) {n : Nat}
    (hlt : n < w.length) : ∃ c cs, w.drop n = c :: cs ∧ isIdentC c = true := by
  have hget := List.drop_eq_getElem_cons hlt
  exact ⟨w[n], w.drop (n + 1), hget,
    identShapeB_all hw _ (List.getElem_mem hlt)⟩

/-- `reservedWord` on a maximal identifier run: the committed ordered
    choice makes exactly the six words of `sixReserved` reserved —
    `tablepartial` and `tablegroup` slip through because the choice
    commits to the prefix `table` and then the boundary lookahead fails. -/
theorem pReserved_shaped {w rest : Str} (hw : identShapeB w = true)
    (hb : bdryOkB rest = true) :
    pReserved (w ++ rest)
      = if (w.map Char.toLower) ∈ sixReserved then some ((), rest) else none := by
  have hwl : (w.map Char.toLower).length = w.length := List.length_map w Char.toLower
  have hk1 := pKw_shaped hw hb (show ∀ c ∈ lc "project", isIdentC c = true by decide)
  have hk2 := pKw_shaped hw hb (show ∀ c ∈ lc "table", isIdentC c = true by decide)
  have hk3 := pKw_shaped hw hb (show ∀ c ∈ lc "tablepartial", isIdentC c = true by decide)
  have hk4 := pKw_shaped hw hb (show ∀ c ∈ lc "ref", isIdentC c = true by decide)
  have hk5 := pKw_shaped hw hb (show ∀ c ∈ lc "enum", isIdentC c = true by decide)
  have hk6 := pKw_shaped hw hb (show ∀ c ∈ lc "tablegroup", isIdentC c = true by decide)
  have hk7 := pKw_shaped hw hb (show ∀ c ∈ lc "indexes", isIdentC c = true by decide)
  have hk8 := pKw_shaped hw hb (show ∀ c ∈ lc "constraints", isIdentC c = true by decide)
  -- derive a committed branch's final value
  have branch : ∀ ki : Str,
      (w.map Char.toLower).take ki.length = ki ∧ ki.length ≤ w.length →
      pKwChoice reservedKws (w ++ rest) = some ((), w.drop ki.length ++ rest) →
      pReserved (w ++ rest)
        = if w.map Char.toLower = ki then some ((), rest) else none := by
    intro ki hCi hval
    unfold pReserved
    rw [hval]
    by_cases hu : w.map Char.toLower = ki
    · have hlen : ki.length = w.length := by
        rw [← hwl, hu]
      have hdrop : w.drop ki.length = [] := by
        rw [hlen]
        exact List.drop_length w
      rw [hdrop, if_pos hu]
      cases hrest : rest with
      | nil => simp
      | cons c rs =>
        have hbc : isIdentC c = false := by
          rw [hrest] at hb
          simpa [bdryOkB] using hb
        simp [hbc]
    · have hlt : ki.length < w.length := by
        rcases Nat.lt_or_ge ki.length w.length with h | h
        · exact h
        · exfalso
          apply hu
          have hlen : ki.length = w.length := Nat.le_antisymm hCi.2 h
          have := hCi.1
          rw [hlen, ← hwl, List.take_length] at this
          exact this
      obtain ⟨c, cs, hdrop, hident⟩ := drop_cons_ident hw hlt
      rw [hdrop, if_neg hu]
      simp [hident]
  -- helper: an element of sixReserved that the run equals gives that
  -- keyword's prefix condition
  have mkCond : ∀ kj : Str, w.map Char.toLower = kj →
      (w.map Char.toLower).take kj.length = kj ∧ kj.length ≤ w.length := by
    intro kj he
    constructor
    · rw [he]
      exact List.take_length kj
    · rw [← hwl, he]
  by_cases hC1 : (w.map Char.toLower).take (lc "project").length = lc "project"
      ∧ (lc "project").length ≤ w.length
  · have hval : pKwChoice reservedKws (w ++ rest)
        = some ((), w.drop (lc "project").length ++ rest) := by
      simp only [pKwChoice, reservedKws, List.foldr, palt, hk1, if_pos hC1]
    rw [branch (lc "project") hC1 hval]
    by_cases hu : w.map Char.toLower = lc "project"
    · rw [if_pos hu, if_pos (by rw [hu]; decide)]
    · rw [if_neg hu, if_neg ?_]
      intro hmem
      simp only [sixReserved, List.mem_cons, List.not_mem_nil, or_false] at hmem
      rcases hmem with he | he | he | he | he | he
      · exact hu he
      all_goals
        have h1 := hC1.1
        rw [he] at h1
        revert h1
        decide
  · by_cases hC2 : (w.map Char.toLower).take (lc "table").length = lc "table"
        ∧ (lc "table").length ≤ w.length
    · have hval : pKwChoice reservedKws (w ++ rest)
          = some ((), w.drop (lc "table").length ++ rest) := by
        simp only [pKwChoice, reservedKws, List.foldr, palt, hk1, hk2,
          if_neg hC1, if_pos hC2]
      rw [branch (lc "table") hC2 hval]
      by_cases hu : w.map Char.toLower = lc "table"
      · rw [if_pos hu, if_pos (by rw [hu]; decide)]
      · rw [if_neg hu, if_neg ?_]
        intro hmem
        simp only [sixReserved, List.mem_cons, List.not_mem_nil, or_false] at hmem
        rcases hmem with he | he | he | he | he | he
        · exact hC1 (mkCond _ he)
        · exact hu he
        all_goals
          have h1 := hC2.1
          rw [he] at h1
          revert h1
          decide
    · by_cases hC3 : (w.map Char.toLower).take (lc "tablepartial").length = lc "tablepartial"
          ∧ (lc "tablepartial").length ≤ w.length
      · exfalso
        apply hC2
        constructor
        · have h5 : (w.map Char.toLower).take (lc "table").length
              = ((w.map Char.toLower).take (lc "tablepartial").length).take (lc "table").length := by
            rw [List.take_take]
            have hmin : (lc "table").length ⊓ (lc "tablepartial").length
                = (lc "table").length := by decide
            rw [hmin]
          rw [h5, hC3.1]
          decide
        · exact le_trans (by decide) hC3.2
      · by_cases hC4 : (w.map Char.toLower).take (lc "ref").length = lc "ref"
            ∧ (lc "ref").length ≤ w.length
        · have hval : pKwChoice reservedKws (w ++ rest)
              = some ((), w.drop (lc "ref").length ++ rest) := by
            simp only [pKwChoice, reservedKws, List.foldr, palt, hk1, hk2, hk3, hk4,
              if_neg hC1, if_neg hC2, if_neg hC3, if_pos hC4]
          rw [branch (lc "ref") hC4 hval]
          by_cases hu : w.map Char.toLower = lc "ref"
          · rw [if_pos hu, if_pos (by rw [hu]; decide)]
          · rw [if_neg hu, if_neg ?_]
            intro hmem
            simp only [sixReserved, List.mem_cons, List.not_mem_nil, or_false] at hmem
            rcases hmem with he | he | he | he | he | he
            · exact hC1 (mkCond _ he)
            · exact hC2 (mkCond _ he)
            · exact hu he
            all_goals
              have h1 := hC4.1
              rw [he] at h1
              revert h1
              decide
        · by_cases hC5 : (w.map Char.toLower).take (lc "enum").length = lc "enum"
              ∧ (lc "enum").length ≤ w.length
          · have hval : pKwChoice reservedKws (w ++ rest)
                = some ((), w.drop (lc "enum").length ++ rest) := by
              simp only [pKwChoice, reservedKws, List.foldr, palt, hk1, hk2, hk3, hk4, hk5,
                if_neg hC1, if_neg hC2, if_neg hC3, if_neg hC4, if_pos hC5]
            rw [branch (lc "enum") hC5 hval]
            by_cases hu : w.map Char.toLower = lc "enum"
            · rw [if_pos hu, if_pos (by rw [hu]; decide)]
            · rw [if_neg hu, if_neg ?_]
              intro hmem
              simp only [sixReserved, List.mem_cons, List.not_mem_nil, or_false] at hmem
              rcases hmem with he | he | he | he | he | he
              · exact hC1 (mkCond _ he)
              · exact hC2 (mkCond _ he)
              · exact hC4 (mkCond _ he)
              · exact hu he
              all_goals
                have h1 := hC5.1
                rw [he] at h1
                revert h1
                decide
          · by_cases hC6 : (w.map Char.toLower).take (lc "tablegroup").length = lc "tablegroup"
                ∧ (lc "tablegroup").length ≤ w.length
            · exfalso
              apply hC2
              constructor
              · have h5 : (w.map Char.toLower).take (lc "table").length
                    = ((w.map Char.toLower).take (lc "tablegroup").length).take (lc "table").length := by
                  rw [List.take_take]
                  have hmin : (lc "table").length ⊓ (lc "tablegroup").length
                      = (lc "table").length := by decide
                  rw [hmin]
                rw [h5, hC6.1]
                decide
              · exact le_trans (by decide) hC6.2
            · by_cases hC7 : (w.map Char.toLower).take (lc "indexes").length = lc "indexes"
                  ∧ (lc "indexes").length ≤ w.length
              · have hval : pKwChoice reservedKws (w ++ rest)
                    = some ((), w.drop (lc "indexes").length ++ rest) := by
                  simp only [pKwChoice, reservedKws, List.foldr, palt,
                    hk1, hk2, hk3, hk4, hk5, hk6, hk7,
                    if_neg hC1, if_neg hC2, if_neg hC3, if_neg hC4, if_neg hC5,
                    if_neg hC6, if_pos hC7]
                rw [branch (lc "indexes") hC7 hval]
                by_cases hu : w.map Char.toLower = lc "indexes"
                · rw [if_pos hu, if_pos (by rw [hu]; decide)]
                · rw [if_neg hu, if_neg ?_]
                  intro hmem
                  simp only [sixReserved, List.mem_cons, List.not_mem_nil, or_false] at hmem
                  rcases hmem with he | he | he | he | he | he
                  · exact hC1 (mkCond _ he)
                  · exact hC2 (mkCond _ he)
                  · exact hC4 (mkCond _ he)
                  · exact hC5 (mkCond _ he)
                  · exact hu he
                  · have h1 := hC7.1
                    rw [he] at h1
                    revert h1
                    decide
              · by_cases hC8 : (w.map Char.toLower).take (lc "constraints").length = lc "constraints"
                    ∧ (lc "constraints").length ≤ w.length
                · have hval : pKwChoice reservedKws (w ++ rest)
                      = some ((), w.drop (lc "constraints").length ++ rest) := by
                    simp only [pKwChoice, reservedKws, List.foldr, palt,
                      hk1, hk2, hk3, hk4, hk5, hk6, hk7, hk8,
                      if_neg hC1, if_neg hC2, if_neg hC3, if_neg hC4, if_neg hC5,
                      if_neg hC6, if_neg hC7, if_pos hC8]
                  rw [branch (lc "constraints") hC8 hval]
                  by_cases hu : w.map Char.toLower = lc "constraints"
                  · rw [if_pos hu, if_pos (by rw [hu]; decide)]
                  · rw [if_neg hu, if_neg ?_]
                    intro hmem
                    simp only [sixReserved, List.mem_cons, List.not_mem_nil, or_false] at hmem
                    rcases hmem with he | he | he | he | he | he
                    · exact hC1 (mkCond _ he)
                    · exact hC2 (mkCond _ he)
                    · exact hC4 (mkCond _ he)
                    · exact hC5 (mkCond _ he)
                    · exact hC7 (mkCond _ he)
                    · exact hu he
                · have hval : pKwChoice reservedKws (w ++ rest) = none := by
                    simp only [pKwChoice, reservedKws, List.foldr, palt,
                      hk1, hk2, hk3, hk4, hk5, hk6, hk7, hk8,
                      if_neg hC1, if_neg hC2, if_neg hC3, if_neg hC4, if_neg hC5,
                      if_neg hC6, if_neg hC7, if_neg hC8]
                    rfl
                  unfold pReserved
                  rw [hval, if_neg ?_]
                  intro hmem
                  simp only [sixReserved, List.mem_cons, List.not_mem_nil, or_false] at hmem
                  rcases hmem with he | he | he | he | he | he
                  · exact hC1 (mkCond _ he)
                  · exact hC2 (mkCond _ he)
                  · exact hC4 (mkCond _ he)
                  · exact hC5 (mkCond _ he)
                  · exact hC7 (mkCond _ he)
                  · exact hC8 (mkCond _ he)

/-- `identifierName = ~reservedWord (letter|"_") (letter|digit|"_")*` on a
    maximal identifier run: succeeds (consuming the whole run) exactly when
    the run's lowercasing is not one of the six effectively reserved words. -/
theorem pIdentName_shaped {w rest : Str} (hw : identShapeB w = true)
    (hb : bdryOkB rest = true) :
    pIdentName (w ++ rest)
      = if (w.map Char.toLower) ∈ sixReserved then none else some (w, rest) := by
  have hr := pReserved_shaped hw hb
  by_cases hmem : (w.map Char.toLower) ∈ sixReserved
  · rw [if_pos hmem] at hr
    rw [if_pos hmem]
    simp only [pIdentName, hr]
  · rw [if_neg hmem] at hr
    rw [if_neg hmem]
    cases w with
    | nil => exact absurd hw (by decide)
    | cons c cs =>
      have hw' := hw
      simp only [identShapeB, Bool.and_eq_true] at hw'
      obtain ⟨hc, hcs⟩ := hw'
      have hall : ∀ x ∈ cs, isIdentC x = true := fun x hx =>
        List.all_eq_true.mp hcs x hx
      have hrt : rest.takeWhile isIdentC = [] := by
        cases rest with
        | nil => rfl
        | cons d ds =>
          have hbd : isIdentC d = false := by
            simpa [bdryOkB] using hb
          exact takeWhile_cons_false hbd ds
      have hrd : rest.dropWhile isIdentC = rest := by
        cases rest with
        | nil => rfl
        | cons d ds =>
          have hbd : isIdentC d = false := by
            simpa [bdryOkB] using hb
          exact dropWhile_cons_false hbd ds
      simp only [List.cons_append] at hr ⊢
      simp only [pIdentName, hr, takeWhile_append_all hall,
        dropWhile_append_all hall, hrt, hrd, List.append_nil, hc, if_true]

def exC7tp : Str := lc "table t \x7b tablepartial int \x7d"

def exC7dual : Str := lc "Table t \x7b type text name text action text \x7d"

/-- Counterexample to C7 as stated: `tablepartial` (and `tablegroup`) are in
    the grammar's `reservedWord` alternative list, yet the committed PEG
    choice commits to the prefix `table` and fails its boundary lookahead,
    so `tablepartial` is accepted as a bare identifier — both by
    `identifierName` directly and as a column name through a full parse. -/
theorem c7_reserved_counterexample :
    lc "tablepartial" ∈ reservedKws
    ∧ lc "tablegroup" ∈ reservedKws
    ∧ pIdentName (lc "tablepartial") = some (lc "tablepartial", [])
    ∧ (allCols (parseD [] exC7tp)).map Column.name = [lc "tablepartial"] :=
  ⟨by decide, by decide, by rfl, by rfl⟩

/-- C7 (amended): on a maximal letter-or-underscore-led run of letters,
    digits and underscores followed by a non-identifier boundary,
    `identifierName` accepts the run as a bare identifier exactly when its
    lowercasing is not one of the SIX effectively reserved words project,
    table, ref, enum, indexes, constraints (`tablepartial` and `tablegroup`,
    though listed in `reservedWord`, are not effectively reserved); other
    keyword-like tokens stay valid identifiers, so
    `Table t { type text name text action text }` yields three text columns
    named type, name and action. -/
theorem c7_identifier_reserved :
    (∀ w rest : Str, identShapeB w = true → bdryOkB rest = true →
      pIdentName (w ++ rest)
        = if (w.map Char.toLower) ∈ sixReserved then none else some (w, rest))
    ∧ (allCols (parseD [] exC7dual)).map Column.name
        = [lc "type", lc "name", lc "action"]
    ∧ (allCols (parseD [] exC7dual)).map Column.type
        = [lc "text", lc "text", lc "text"] :=
  ⟨fun _ _ hw hb => pIdentName_shaped hw hb, by rfl, by rfl⟩

/-- Witness for C7: the characterization applied at the keyword-like run
    `where` (accepted) and at the reserved run `enum` (rejected). -/
theorem c7_identifier_reserved_witness :
    pIdentName (lc "where" ++ lc " x") = some (lc "where", lc " x")
    ∧ pIdentName (lc "enum" ++ ([] : Str)) = none := by
  constructor
  · have h1 := c7_identifier_reserved.1 (lc "where") (lc " x")
      (by decide) (by decide)
    rw [h1]
    decide
  · have h2 := c7_identifier_reserved.1 (lc "enum") ([] : Str)
      (by decide) (by decide)
    rw [h2]
    decide
